import Mathlib

/-!
# Brainfuck interpreter (C implementation): bracket resolver and execution engine

Shallow embedding of `src/c/hashmap.c`, `src/c/stack.c` and `src/c/interpreter.c`.

Conventions of the embedding.

* A C string is the list of its characters before the terminating NUL, so
  `strlen` is `List.length`.
* `size_t` values are natural numbers; the only place where 64-bit wrap-around
  can happen (the multiplications of `simple_hash`) reduces modulo `2 ^ 64`.
* `uint8_t` cells are natural numbers, reduced modulo `256` where the code
  stores into them.
* Heap blocks are tracked by their size in bytes.  `malloc` and `realloc` are
  taken to succeed and to return a block of `usable_size` bytes: the request
  rounded up the way the allocator of the GNU C library does on a 64-bit
  platform, so a small request gets 24 bytes.  A store or a load inside that
  block does what the machine does, also where the request was smaller (the C
  standard promises only the bytes requested).
* Undefined behaviour (a store outside a heap block, a read of an
  uninitialised local, an out-of-range array index) is the result `none`.
* `stdin`, `stdout` and `stderr` are explicit streams.
-/

namespace BF

/-! ## hashmap.h / hashmap.c -/

/-- The macro `NUM_BUCKETS` of hashmap.h. -/
@[reducible] def NUM_BUCKETS : Nat := 10

/-- The function `simple_hash` of hashmap.c, on 64-bit `size_t`. -/
def simple_hash (input : Nat) : Nat :=
  let prime1 : Nat := 0x9e3779b97f4a7c15
  let prime2 : Nat := 0xbf58476d1ce4e5b9
  let input := input ^^^ (input >>> 30)
  let input := (input * prime1) % 2 ^ 64
  let input := input ^^^ (input >>> 27)
  let input := (input * prime2) % 2 ^ 64
  input

/-- A chain of `struct bucket_list` nodes: each node is a `(key, value)` pair,
the `next` pointer is the tail and `NULL` is the empty list. -/
abbrev bucket_list := List (Nat × Nat)

/-- The `struct hashmap` of hashmap.h: an array of `NUM_BUCKETS` chains. -/
structure hashmap where
  buckets : Fin NUM_BUCKETS → bucket_list

/-- The bucket index `simple_hash(key) % NUM_BUCKETS`. -/
def bucket_index (key : Nat) : Fin NUM_BUCKETS :=
  ⟨simple_hash key % NUM_BUCKETS, Nat.mod_lt _ (by decide)⟩

/-- The function `hashmap_init`: every bucket becomes `NULL`. -/
def hashmap_init (_map : hashmap) : hashmap :=
  { buckets := fun _ => [] }

/-- The list walk of `hashmap_set`: overwrite the value of the first node whose
key matches, or append a new node at the end of the chain. -/
def bucket_set : bucket_list → Nat → Nat → bucket_list
  | [], key, value => [(key, value)]
  | (k, v) :: next, key, value =>
    if k = key then (k, value) :: next else (k, v) :: bucket_set next key value

/-- The function `hashmap_set`. -/
def hashmap_set (map : hashmap) (key value : Nat) : hashmap :=
  { buckets := Function.update map.buckets (bucket_index key)
      (bucket_set (map.buckets (bucket_index key)) key value) }

/-- The list walk of `hashmap_get`: the value of the first node whose key
matches. -/
def bucket_get : bucket_list → Nat → Option Nat
  | [], _ => none
  | (k, v) :: next, key => if k = key then some v else bucket_get next key

/-- The function `hashmap_get`: `some v` stands for the return value `true`
with `*out_value = v`, `none` for the return value `false` (with `*out_value`
left untouched). -/
def hashmap_get (map : hashmap) (key : Nat) : Option Nat :=
  bucket_get (map.buckets (bucket_index key)) key

/-! ## stack.h / stack.c -/

/-- The macro `STACK_INITIAL_CAPACITY` of stack.c. -/
@[reducible] def STACK_INITIAL_CAPACITY : Nat := 1

/-- The value of `sizeof(stack_value_t)`, that is `sizeof(size_t)`, in bytes. -/
@[reducible] def SIZEOF_STACK_VALUE_T : Nat := 8

/-- The number of bytes of the heap block that `malloc` or `realloc` returns for
a request of `request` bytes: chunks have an 8-byte header, a granularity of 16
bytes and a minimum of 32 bytes, so every request up to 24 bytes gets 24. -/
def usable_size (request : Nat) : Nat :=
  max 32 ((request + 8 + 15) / 16 * 16) - 8

/-- The `struct stack` of stack.h.  `items i` is the content of `items[i]`;
`block_bytes` is the size in bytes of the heap block `items` points to. -/
structure stack where
  items : Nat → Nat
  size : Nat
  capacity : Nat
  block_bytes : Nat

/-- The function `stack_init`:
`malloc(sizeof(stack_value_t) * STACK_INITIAL_CAPACITY)`. -/
def stack_init : stack :=
  { items := fun _ => 0
    size := 0
    capacity := STACK_INITIAL_CAPACITY
    block_bytes := usable_size (SIZEOF_STACK_VALUE_T * STACK_INITIAL_CAPACITY) }

/-- The function `stack_reallocate`: `realloc(stack->items, new_capacity)`,
whose second argument is the requested size of the block in bytes (not in
elements); the contents are kept. -/
def stack_reallocate (s : stack) : stack :=
  let new_capacity := s.capacity * 2
  { s with capacity := new_capacity, block_bytes := usable_size new_capacity }

/-- The function `stack_empty`. -/
def stack_empty (s : stack) : Bool := s.size == 0

/-- The function `stack_push`.  The store `stack->items[stack->size] = value`
is defined only when the element lies inside the heap block. -/
def stack_push (s : stack) (value : Nat) : Option stack :=
  let s := if s.size = s.capacity then stack_reallocate s else s
  if SIZEOF_STACK_VALUE_T * (s.size + 1) ≤ s.block_bytes then
    some { s with items := Function.update s.items s.size value, size := s.size + 1 }
  else
    none

/-- The function `stack_top`.  The load `stack->items[stack->size - 1]` has
a result only when the stack is not empty and the element lies inside the
heap block. -/
def stack_top (s : stack) : Option Nat :=
  if 0 < s.size ∧ SIZEOF_STACK_VALUE_T * s.size ≤ s.block_bytes then
    some (s.items (s.size - 1))
  else
    none

/-- The function `stack_pop`. -/
def stack_pop (s : stack) : Option (Nat × stack) :=
  match stack_top s with
  | none => none
  | some value => some (value, { s with size := s.size - 1 })

/-! ## interpreter.h / interpreter.c -/

/-- The macro `MEMORY_SIZE` of interpreter.h. -/
@[reducible] def MEMORY_SIZE : Nat := 4096

@[reducible] def OPERATOR_RIGHT : Char := '>'
@[reducible] def OPERATOR_LEFT : Char := '<'
@[reducible] def OPERATOR_INCREMENT : Char := '+'
@[reducible] def OPERATOR_DECREMENT : Char := '-'
@[reducible] def OPERATOR_WRITE : Char := '.'
@[reducible] def OPERATOR_READ : Char := ','
@[reducible] def OPERATOR_JUMP_IF_ZERO : Char := '['
@[reducible] def OPERATOR_JUMP_UNLESS_ZERO : Char := ']'

/-- The `struct interpreter` of interpreter.h. -/
structure interpreter where
  source : List Char
  source_length : Nat
  pc : Nat
  cells : Fin MEMORY_SIZE → Nat
  pointer : Nat
  bracket_map : hashmap

/-- The text `fprintf(stderr, "Brainfuck syntax error: mismatched %c\n", c)`
writes. -/
def mismatched_message (c : Char) : String :=
  "Brainfuck syntax error: mismatched " ++ String.singleton c ++ "\n"

/-- What a call of `init_bracket_map` (and of `interpreter_init`) leaves
behind: the returned `bool`, the text written to `stderr`, and the
interpreter struct. -/
structure init_outcome where
  success : Bool
  stderr : String
  interpreter : interpreter

/-- The `for` loop of `init_bracket_map` from address `address` on; the first
argument is `source[address ..]`, the characters not yet scanned. -/
def init_bracket_map_loop (itp : interpreter) :
    List Char → Nat → stack → hashmap → Option init_outcome
  | [], _, seen_openers, bracket_map =>
    if !stack_empty seen_openers then
      some { success := false
             stderr := mismatched_message OPERATOR_JUMP_IF_ZERO
             interpreter := { itp with bracket_map := bracket_map } }
    else
      some { success := true
             stderr := ""
             interpreter := { itp with bracket_map := bracket_map } }
  | bf_operator :: rest, address, seen_openers, bracket_map =>
    if bf_operator = OPERATOR_JUMP_IF_ZERO then
      match stack_push seen_openers address with
      | none => none
      | some seen_openers => init_bracket_map_loop itp rest (address + 1) seen_openers bracket_map
    else if bf_operator = OPERATOR_JUMP_UNLESS_ZERO then
      if stack_empty seen_openers then
        some { success := false
               stderr := mismatched_message OPERATOR_JUMP_UNLESS_ZERO
               interpreter := { itp with bracket_map := bracket_map } }
      else
        match stack_pop seen_openers with
        | none => none
        | some (destination_address, seen_openers) =>
          init_bracket_map_loop itp rest (address + 1) seen_openers
            (hashmap_set (hashmap_set bracket_map address destination_address)
              destination_address address)
    else
      init_bracket_map_loop itp rest (address + 1) seen_openers bracket_map

/-- The function `init_bracket_map`.  The loop reads `source[address]` for
`address < source_length`. -/
def init_bracket_map (itp : interpreter) : Option init_outcome :=
  init_bracket_map_loop itp (itp.source.take itp.source_length) 0 stack_init itp.bracket_map

/-- The function `interpreter_init`. -/
def interpreter_init (itp : interpreter) (source : List Char) : Option init_outcome :=
  init_bracket_map
    { source := source
      source_length := source.length
      pc := 0
      cells := fun _ => 0
      pointer := 0
      bracket_map := hashmap_init itp.bracket_map }

/-- The process the interpreter runs in: the interpreter struct, the bytes of
`stdin` not yet read, and the bytes written to `stdout` so far. -/
structure process where
  interpreter : interpreter
  stdin : List Nat
  stdout : List Nat

/-- The function `current_cell_ref`: the index of `cells[pointer]`, defined
only when `pointer` is inside the array. -/
def current_cell_ref (itp : interpreter) : Option (Fin MEMORY_SIZE) :=
  if h : itp.pointer < MEMORY_SIZE then some ⟨itp.pointer, h⟩ else none

/-- The function `move_pointer_right`. -/
def move_pointer_right (itp : interpreter) : interpreter :=
  { itp with pointer := (itp.pointer + 1) % MEMORY_SIZE }

/-- The function `move_pointer_left`. -/
def move_pointer_left (itp : interpreter) : interpreter :=
  let current_pointer := itp.pointer
  { itp with pointer := if current_pointer = 0 then MEMORY_SIZE - 1 else current_pointer - 1 }

/-- The function `increment_cell`: `++` on a `uint8_t`. -/
def increment_cell (itp : interpreter) : Option interpreter :=
  match current_cell_ref itp with
  | none => none
  | some ref => some { itp with cells := Function.update itp.cells ref ((itp.cells ref + 1) % 256) }

/-- The function `decrement_cell`: `--` on a `uint8_t`. -/
def decrement_cell (itp : interpreter) : Option interpreter :=
  match current_cell_ref itp with
  | none => none
  | some ref =>
    some { itp with cells := Function.update itp.cells ref ((itp.cells ref + 256 - 1) % 256) }

/-- The call `putc(byte, stdout)`: the byte written is `(unsigned char) byte`. -/
def putc (byte : Int) (stdout : List Nat) : List Nat :=
  stdout ++ [(byte % 256).toNat]

/-- The call `getc(stdin)`: the next byte as an `int`, or `EOF`, which is `-1`,
when the stream is exhausted. -/
def getc (stdin : List Nat) : Int × List Nat :=
  match stdin with
  | [] => (-1, [])
  | b :: rest => (((b % 256 : Nat) : Int), rest)

/-- The function `write_cell_to_stdout`. -/
def write_cell_to_stdout (p : process) : Option process :=
  match current_cell_ref p.interpreter with
  | none => none
  | some ref =>
    let byte : Int := (p.interpreter.cells ref : Int)
    some { p with stdout := putc byte p.stdout }

/-- The function `replace_cell_with_stdin`: the cell receives `(uint8_t) byte`. -/
def replace_cell_with_stdin (p : process) : Option process :=
  let (byte, stdin) := getc p.stdin
  match current_cell_ref p.interpreter with
  | none => none
  | some ref =>
    some { p with
      interpreter :=
        { p.interpreter with
          cells := Function.update p.interpreter.cells ref (byte % 256).toNat }
      stdin := stdin }

/-- The function `jump_if_cell_is_zero`.  The local `destination` is
initialised only when `hashmap_get` returns `true`. -/
def jump_if_cell_is_zero (itp : interpreter) : Option interpreter :=
  match current_cell_ref itp with
  | none => none
  | some ref =>
    if itp.cells ref = 0 then
      match hashmap_get itp.bracket_map itp.pc with
      | none => none
      | some destination => some { itp with pc := destination }
    else
      some itp

/-- The function `jump_if_cell_is_nonzero`.  The local `destination` is
initialised only when `hashmap_get` returns `true`. -/
def jump_if_cell_is_nonzero (itp : interpreter) : Option interpreter :=
  match current_cell_ref itp with
  | none => none
  | some ref =>
    if itp.cells ref ≠ 0 then
      match hashmap_get itp.bracket_map itp.pc with
      | none => none
      | some destination => some { itp with pc := destination }
    else
      some itp

/-- The `switch` statement of `interpreter_run` on the fetched character. -/
def dispatch (bf_operator : Char) (p : process) : Option process :=
  if bf_operator = OPERATOR_RIGHT then
    some { p with interpreter := move_pointer_right p.interpreter }
  else if bf_operator = OPERATOR_LEFT then
    some { p with interpreter := move_pointer_left p.interpreter }
  else if bf_operator = OPERATOR_INCREMENT then
    (increment_cell p.interpreter).map fun itp => { p with interpreter := itp }
  else if bf_operator = OPERATOR_DECREMENT then
    (decrement_cell p.interpreter).map fun itp => { p with interpreter := itp }
  else if bf_operator = OPERATOR_WRITE then
    write_cell_to_stdout p
  else if bf_operator = OPERATOR_READ then
    replace_cell_with_stdin p
  else if bf_operator = OPERATOR_JUMP_IF_ZERO then
    (jump_if_cell_is_zero p.interpreter).map fun itp => { p with interpreter := itp }
  else if bf_operator = OPERATOR_JUMP_UNLESS_ZERO then
    (jump_if_cell_is_nonzero p.interpreter).map fun itp => { p with interpreter := itp }
  else
    some p

/-- The body of the `while` loop of `interpreter_run`: fetch `source[pc]`,
dispatch, then `++pc`. -/
def interpreter_run_body (p : process) : Option process :=
  match p.interpreter.source[p.interpreter.pc]? with
  | none => none
  | some bf_operator =>
    (dispatch bf_operator p).map fun p =>
      { p with interpreter := { p.interpreter with pc := p.interpreter.pc + 1 } }

/-- The loop condition of `interpreter_run`. -/
def interpreter_run_condition (p : process) : Bool :=
  decide (p.interpreter.pc < p.interpreter.source_length)

/-- The `while` loop of `interpreter_run`, cut off after `n` iterations: the
state after `n` iterations, or the state in which the loop stopped earlier. -/
def interpreter_run_steps : Nat → process → Option process
  | 0, p => some p
  | n + 1, p =>
    if interpreter_run_condition p then
      match interpreter_run_body p with
      | none => none
      | some p => interpreter_run_steps n p
    else
      some p

/-- The state in which `main` calls `interpreter_run` after a call of
`interpreter_init` with outcome `out`: nothing read, nothing written yet. -/
def start (out : init_outcome) (stdin : List Nat) : process :=
  { interpreter := out.interpreter, stdin := stdin, stdout := [] }

/-- An interpreter struct as `interpreter_init` fills it in for `source`, before
it calls `init_bracket_map`. -/
def blank (source : List Char) : interpreter :=
  { source := source
    source_length := source.length
    pc := 0
    cells := fun _ => 0
    pointer := 0
    bracket_map := hashmap_init { buckets := fun _ => [] } }

/-! ## Vocabulary of the properties -/

/-- Number of loop-start characters among the first `k` characters. -/
def opens (src : List Char) (k : Nat) : Nat := (src.take k).count OPERATOR_JUMP_IF_ZERO

/-- Number of loop-end characters among the first `k` characters. -/
def closes (src : List Char) (k : Nat) : Nat := (src.take k).count OPERATOR_JUMP_UNLESS_ZERO

/-- Balanced and properly nested: no initial segment has more loop-ends than
loop-starts, and the totals are equal. -/
def balanced (l : List Char) : Prop :=
  (∀ k, k ≤ l.length → closes l k ≤ opens l k) ∧
    l.count OPERATOR_JUMP_IF_ZERO = l.count OPERATOR_JUMP_UNLESS_ZERO

instance balanced_decidable (l : List Char) : Decidable (balanced l) :=
  inferInstanceAs (Decidable ((∀ k, k ≤ l.length → closes l k ≤ opens l k) ∧
    l.count OPERATOR_JUMP_IF_ZERO = l.count OPERATOR_JUMP_UNLESS_ZERO))

/-- The characters strictly between the addresses `o` and `c`. -/
def between (src : List Char) (o c : Nat) : List Char := (src.take c).drop (o + 1)

/-- The address `o` holds a loop-start, the later address `c` holds a loop-end,
and the characters strictly between them are balanced: `c` is the loop-end
that parenthesis matching pairs with `o`. -/
def pair_ok (src : List Char) (o c : Nat) : Prop :=
  src[o]? = some OPERATOR_JUMP_IF_ZERO ∧ src[c]? = some OPERATOR_JUMP_UNLESS_ZERO ∧ o < c ∧
    balanced (between src o c)

/-- The loop-start at address `o` is never closed: no later loop-end matches it. -/
def never_closed (src : List Char) (o : Nat) : Prop :=
  src[o]? = some OPERATOR_JUMP_IF_ZERO ∧ ∀ c, ¬ pair_ok src o c

/-- The stack as `init_bracket_map` keeps it while at most three loops are
open: the block `items` points to has 24 bytes, and `capacity` is 1, 2 or 4. -/
def small_block (st : stack) : Prop :=
  st.block_bytes = 24 ∧ (st.capacity = 1 ∨ st.capacity = 2 ∨ st.capacity = 4)

/-- The bracket at address `x` has been paired by the scan before address `a`,
with an address that is not on the stack either. -/
def matched (src : List Char) (st : stack) (m : hashmap) (a x : Nat) : Prop :=
  ∃ y, y < a ∧ (∀ i, i < st.size → st.items i ≠ y) ∧ (∀ i, i < st.size → st.items i ≠ x) ∧
    hashmap_get m x = some y ∧ hashmap_get m y = some x ∧ (pair_ok src x y ∨ pair_ok src y x)

/-- The invariant of the scan loop of `init_bracket_map` when it is about to
read address `a`, started on the map `m0`. -/
structure scan_inv (src : List Char) (m0 : hashmap) (a : Nat) (st : stack) (m : hashmap) :
    Prop where
  bound : a ≤ src.length
  depth : opens src a = closes src a + st.size
  nonneg : ∀ j, j ≤ a → closes src j ≤ opens src j
  pending : ∀ i, i < st.size → st.items i < a ∧ src[st.items i]? = some OPERATOR_JUMP_IF_ZERO ∧
    opens src (st.items i) = closes src (st.items i) + i ∧
    ∀ j, st.items i < j → j ≤ a → closes src j + i + 1 ≤ opens src j
  paired : ∀ x, x < a →
    (src[x]? = some OPERATOR_JUMP_IF_ZERO ∨ src[x]? = some OPERATOR_JUMP_UNLESS_ZERO) →
    (∃ i, i < st.size ∧ st.items i = x) ∨ matched src st m a x
  frame : ∀ k, hashmap_get m k = hashmap_get m0 k ∨
    (k < a ∧ (src[k]? = some OPERATOR_JUMP_IF_ZERO ∨ src[k]? = some OPERATOR_JUMP_UNLESS_ZERO))

/-- The three ways the scan of `init_bracket_map` ends, each with the loop
invariant at the address where it ended. -/
def scan_exit (src : List Char) (m0 : hashmap) (out : init_outcome) : Prop :=
  (out.success = true ∧ out.stderr = "" ∧
    ∃ st, scan_inv src m0 src.length st out.interpreter.bracket_map ∧ st.size = 0) ∨
  (out.success = false ∧ out.stderr = mismatched_message OPERATOR_JUMP_UNLESS_ZERO ∧
    ∃ a st, src[a]? = some OPERATOR_JUMP_UNLESS_ZERO ∧
      scan_inv src m0 a st out.interpreter.bracket_map ∧ st.size = 0) ∨
  (out.success = false ∧ out.stderr = mismatched_message OPERATOR_JUMP_IF_ZERO ∧
    ∃ st, scan_inv src m0 src.length st out.interpreter.bracket_map ∧ 0 < st.size)

/-- The bracket map has, for every bracket of the source, a destination inside
the source. -/
def map_complete (src : List Char) (map : hashmap) : Prop :=
  ∀ x, (src[x]? = some OPERATOR_JUMP_IF_ZERO ∨ src[x]? = some OPERATOR_JUMP_UNLESS_ZERO) →
    ∃ y, hashmap_get map x = some y ∧ y < src.length

/-- The invariant of the run loop of `interpreter_run` on the source `src` with
the bracket map `map`. -/
structure run_inv (src : List Char) (map : hashmap) (p : process) : Prop where
  source_eq : p.interpreter.source = src
  length_eq : p.interpreter.source_length = src.length
  map_eq : p.interpreter.bracket_map = map
  pc_le : p.interpreter.pc ≤ src.length
  pointer_lt : p.interpreter.pointer < MEMORY_SIZE

/-- A source with two loops, neither inside the other. -/
def two_loops : List Char := "[-]+[>]".toList

/-- The outcome of `init_bracket_map` on `two_loops`. -/
def two_loops_outcome : init_outcome := (init_bracket_map (blank two_loops)).get rfl

/-- A source with a loop inside a loop inside a loop: the loop-starts are at
the addresses 1, 5 and 6, and the innermost loop is the clear loop `[-]` at the
addresses 6, 7 and 8. -/
def nested_loops : List Char := "+[>++[[-]]<-]".toList

/-- The outcome of `init_bracket_map` on `nested_loops`. -/
def nested_loops_outcome : init_outcome := (init_bracket_map (blank nested_loops)).get rfl

/-- The state of the run of `nested_loops` after eight iterations of the run
loop. -/
def nested_loops_state : process :=
  (interpreter_run_steps 8 (start nested_loops_outcome [])).get rfl

/-- The sample program of the specification. -/
def sample_program : List Char := "++>+++++[<+>-]<.".toList

/-- The outcome of `init_bracket_map` on `sample_program`. -/
def sample_outcome : init_outcome := (init_bracket_map (blank sample_program)).get rfl

/-- The function `increment_cell` applied `n` times in a row. -/
def increment_cell_times : Nat → interpreter → Option interpreter
  | 0, itp => some itp
  | n + 1, itp =>
    match increment_cell itp with
    | none => none
    | some itp => increment_cell_times n itp

/-- A map with one entry, for the key 5, which falls in bucket 0 like the key 0. -/
def one_entry_map : hashmap := hashmap_set (hashmap_init { buckets := fun _ => [] }) 5 50

/-- An interpreter struct with content left by an earlier use. -/
def used_interpreter : interpreter :=
  { source := "+".toList
    source_length := 1
    pc := 9
    cells := fun _ => 200
    pointer := 77
    bracket_map := one_entry_map }

/-- A state at a character that is not an operator. -/
def comment_state : process :=
  { interpreter := blank "x+".toList, stdin := [9], stdout := [8] }

/-- An interpreter struct whose cells all hold 255. -/
def full_cells : interpreter := { blank [] with cells := fun _ => 255 }

/-- A state with an exhausted input stream, 7 in every cell and one byte
already written. -/
def end_of_input_state : process :=
  { interpreter := { blank ",".toList with cells := fun _ => 7 }, stdin := [], stdout := [4] }

/-- After `bucket_set` on a key, `bucket_get` finds the value set, whether the key
was in the chain or not. -/
theorem bucket_get_set_self (l : bucket_list) (k v : Nat) :
    bucket_get (bucket_set l k v) k = some v := by
  induction l with
  | nil => simp [bucket_set, bucket_get]
  | cons hd tl ih =>
    obtain ⟨k0, v0⟩ := hd
    by_cases h : k0 = k
    · simp [bucket_set, bucket_get, h]
    · simp [bucket_set, bucket_get, h, ih]

/-- The walk of `bucket_set` on a key leaves the lookup of every other key unchanged. -/
theorem bucket_get_set_ne (l : bucket_list) (k v k' : Nat) (hne : k' ≠ k) :
    bucket_get (bucket_set l k v) k' = bucket_get l k' := by
  induction l with
  | nil => simp [bucket_set, bucket_get, Ne.symm hne]
  | cons hd tl ih =>
    obtain ⟨k0, v0⟩ := hd
    by_cases h : k0 = k
    · subst h
      simp [bucket_set, bucket_get, Ne.symm hne]
    · by_cases h2 : k0 = k'
      · subst h2
        simp [bucket_set, bucket_get, h]
      · simp [bucket_set, bucket_get, h, h2, ih]

/-- Lookup after update, `hashmap_get` after `hashmap_set`: the value set at
the key itself, the earlier result at every other key, also when both keys
fall in one bucket. -/
theorem hashmap_get_set (m : hashmap) (k v k' : Nat) :
    hashmap_get (hashmap_set m k v) k' = if k' = k then some v else hashmap_get m k' := by
  by_cases h : k' = k
  · subst h
    simp [hashmap_get, hashmap_set, bucket_get_set_self]
  · simp only [h, if_false]
    unfold hashmap_get hashmap_set
    dsimp only
    by_cases hb : bucket_index k' = bucket_index k
    · rw [hb, Function.update_same, bucket_get_set_ne _ _ _ _ h]
    · simp only [Function.update_noteq hb]

/-- A map fresh from `hashmap_init` has no entry. -/
theorem hashmap_get_init (m : hashmap) (k : Nat) : hashmap_get (hashmap_init m) k = none := by
  simp [hashmap_get, hashmap_init, bucket_get]

/-! ## Counting brackets -/

theorem opens_succ (src : List Char) (a : Nat) (c : Char) (h : src[a]? = some c) :
    opens src (a + 1) = opens src a + if c = OPERATOR_JUMP_IF_ZERO then 1 else 0 := by
  unfold opens
  rw [List.take_succ, h]
  simp [List.count_append, List.count_cons, List.count_nil]

theorem closes_succ (src : List Char) (a : Nat) (c : Char) (h : src[a]? = some c) :
    closes src (a + 1) = closes src a + if c = OPERATOR_JUMP_UNLESS_ZERO then 1 else 0 := by
  unfold closes
  rw [List.take_succ, h]
  simp [List.count_append, List.count_cons, List.count_nil]

/-- Counting in the segment between two addresses is counting up to the second
minus counting up to the first. -/
theorem count_drop_take (x : Char) (l : List Char) (m j : Nat) (h : m ≤ j) :
    ((l.take j).drop m).count x + (l.take m).count x = (l.take j).count x := by
  have h1 : l.take j = (l.take j).take m ++ (l.take j).drop m := (List.take_append_drop m _).symm
  have h2 : (l.take j).take m = l.take m := by
    rw [List.take_take, Nat.min_eq_left h]
  rw [h2] at h1
  conv_rhs => rw [h1]
  rw [List.count_append]
  omega

theorem take_between (src : List Char) (o c k : Nat) :
    (between src o c).take k = (src.take (min (o + 1 + k) c)).drop (o + 1) := by
  unfold between
  rw [List.take_drop, List.take_take]


theorem opens_length (src : List Char) : opens src src.length = src.count OPERATOR_JUMP_IF_ZERO := by
  simp [opens]

theorem closes_length (src : List Char) :
    closes src src.length = src.count OPERATOR_JUMP_UNLESS_ZERO := by
  simp [closes]

theorem opens_of_length_le (src : List Char) (k : Nat) (h : src.length ≤ k) :
    opens src k = opens src src.length := by
  simp [opens, List.take_of_length_le h]

theorem closes_of_length_le (src : List Char) (k : Nat) (h : src.length ≤ k) :
    closes src k = closes src src.length := by
  simp [closes, List.take_of_length_le h]

theorem getElem?_lt_length (src : List Char) (a : Nat) (c : Char) (hc : src[a]? = some c) :
    a < src.length := by
  rcases Nat.lt_or_ge a src.length with h | h
  · exact h
  · rw [List.getElem?_eq_none h] at hc
    exact absurd hc (by simp)

theorem drop_eq_cons (src : List Char) (a : Nat) (c : Char) (rest : List Char)
    (h : src.drop a = c :: rest) : src[a]? = some c ∧ src.drop (a + 1) = rest := by
  have hlt : a < src.length := by
    rcases Nat.lt_or_ge a src.length with h' | h'
    · exact h'
    · rw [List.drop_eq_nil_of_le h'] at h
      exact absurd h (by simp)
  rw [List.drop_eq_getElem_cons hlt] at h
  simp only [List.cons.injEq] at h
  exact ⟨by rw [List.getElem?_eq_getElem hlt, h.1], h.2⟩

/-! ## The stack -/

/-- A `stack_push` that stays inside the block stores the value at index `size`
and increments `size`. -/
theorem stack_push_some (st st' : stack) (v : Nat) (h : stack_push st v = some st') :
    st'.size = st.size + 1 ∧ st'.items = Function.update st.items st.size v := by
  unfold stack_push at h
  by_cases hc : st.size = st.capacity
  · simp only [hc, if_true, stack_reallocate] at h
    split at h
    · simp only [Option.some.injEq] at h
      subst h
      simp [hc]
    · exact absurd h (by simp)
  · simp only [hc, if_false] at h
    split at h
    · simp only [Option.some.injEq] at h
      subst h
      simp
    · exact absurd h (by simp)

/-- A defined `stack_pop` returns `items[size - 1]` and decrements `size`. -/
theorem stack_pop_some (st st' : stack) (d : Nat) (h : stack_pop st = some (d, st')) :
    0 < st.size ∧ d = st.items (st.size - 1) ∧ st'.size = st.size - 1 ∧ st'.items = st.items := by
  unfold stack_pop stack_top at h
  split at h
  · exact absurd h (by simp)
  · rename_i value hv
    split at hv
    · rename_i hc
      simp only [Option.some.injEq] at hv
      simp only [Option.some.injEq, Prod.mk.injEq] at h
      obtain ⟨h1, h2⟩ := h
      subst h2
      exact ⟨hc.1, by rw [← h1, hv], rfl, rfl⟩
    · exact absurd hv (by simp)

/-! ## The scan loop of `init_bracket_map` -/

/-- The invariant holds before the first iteration of the scan. -/
theorem scan_inv_init (src : List Char) (m0 : hashmap) : scan_inv src m0 0 stack_init m0 where
  bound := Nat.zero_le _
  depth := by simp [opens, closes, stack_init]
  nonneg := by
    intro j hj
    have : j = 0 := by omega
    subst this
    simp [opens, closes]
  pending := by
    intro i hi
    simp [stack_init] at hi
  paired := by
    intro x hx
    omega
  frame := fun k => Or.inl rfl

/-- The invariant is kept by an iteration on a character that is not a bracket. -/
theorem scan_inv_other (src : List Char) (m0 : hashmap) (a : Nat) (st : stack) (m : hashmap)
    (c : Char) (hinv : scan_inv src m0 a st m) (hc : src[a]? = some c)
    (h1 : c ≠ OPERATOR_JUMP_IF_ZERO) (h2 : c ≠ OPERATOR_JUMP_UNLESS_ZERO) :
    scan_inv src m0 (a + 1) st m := by
  have ho := opens_succ src a c hc
  have hcl := closes_succ src a c hc
  simp only [h1, h2, if_false, Nat.add_zero] at ho hcl
  have hlt : a < src.length := by
    rcases Nat.lt_or_ge a src.length with h | h
    · exact h
    · rw [List.getElem?_eq_none h] at hc
      exact absurd hc (by simp)
  refine ⟨hlt, ?_, ?_, ?_, ?_, ?_⟩
  · rw [ho, hcl]; exact hinv.depth
  · intro j hj
    rcases Nat.lt_or_ge j (a + 1) with h | h
    · exact hinv.nonneg j (by omega)
    · have : j = a + 1 := by omega
      subst this
      rw [ho, hcl]
      exact hinv.nonneg a (le_refl _)
  · intro i hi
    obtain ⟨p1, p2, p3, p4⟩ := hinv.pending i hi
    refine ⟨by omega, p2, p3, ?_⟩
    intro j hj1 hj2
    rcases Nat.lt_or_ge j (a + 1) with h | h
    · exact p4 j hj1 (by omega)
    · have : j = a + 1 := by omega
      subst this
      rw [ho, hcl]
      exact p4 a p1 (le_refl _)
  · intro x hx hb
    rcases Nat.lt_or_ge x a with h | h
    · rcases hinv.paired x h hb with hs | ⟨y, q1, q2, q3, q4, q5, q6⟩
      · exact Or.inl hs
      · exact Or.inr ⟨y, by omega, q2, q3, q4, q5, q6⟩
    · have : x = a := by omega
      subst this
      rw [hc] at hb
      simp only [Option.some.injEq] at hb
      rcases hb with hb | hb
      · exact absurd hb h1
      · exact absurd hb h2
  · intro k
    rcases hinv.frame k with h | ⟨h, hb⟩
    · exact Or.inl h
    · exact Or.inr ⟨by omega, hb⟩


/-- The invariant is kept by an iteration on a loop-start. -/
theorem scan_inv_push (src : List Char) (m0 : hashmap) (a : Nat) (st st' : stack) (m : hashmap)
    (hinv : scan_inv src m0 a st m) (hc : src[a]? = some OPERATOR_JUMP_IF_ZERO)
    (hpush : stack_push st a = some st') :
    scan_inv src m0 (a + 1) st' m := by
  have ho := opens_succ src a _ hc
  have hcl := closes_succ src a _ hc
  simp only [if_true, show ¬ (OPERATOR_JUMP_IF_ZERO = OPERATOR_JUMP_UNLESS_ZERO) by decide,
    if_false, Nat.add_zero] at ho hcl
  obtain ⟨hsize, hitems⟩ := stack_push_some st st' a hpush
  have hdepth := hinv.depth
  have hold : ∀ i, i < st.size → st'.items i = st.items i := by
    intro i hi
    rw [hitems, Function.update_noteq (by omega)]
  have hnew : st'.items st.size = a := by
    rw [hitems, Function.update_same]
  refine ⟨getElem?_lt_length src a _ hc, by omega, ?_, ?_, ?_, ?_⟩
  · intro j hj
    rcases Nat.lt_or_ge j (a + 1) with h | h
    · exact hinv.nonneg j (by omega)
    · have : j = a + 1 := by omega
      subst this
      have := hinv.nonneg a (le_refl _)
      omega
  · intro i hi
    rcases Nat.lt_or_ge i st.size with h | h
    · obtain ⟨p1, p2, p3, p4⟩ := hinv.pending i h
      rw [hold i h]
      refine ⟨by omega, p2, p3, ?_⟩
      intro j hj1 hj2
      rcases Nat.lt_or_ge j (a + 1) with h' | h'
      · exact p4 j hj1 (by omega)
      · have : j = a + 1 := by omega
        subst this
        have := p4 a p1 (le_refl _)
        omega
    · have : i = st.size := by omega
      subst this
      rw [hnew]
      refine ⟨by omega, hc, hdepth, ?_⟩
      intro j hj1 hj2
      have : j = a + 1 := by omega
      subst this
      omega
  · intro x hx hb
    rcases Nat.lt_or_ge x a with h | h
    · rcases hinv.paired x h hb with ⟨i, hi, hs⟩ | ⟨y, q1, q2, q3, q4, q5, q6⟩
      · exact Or.inl ⟨i, by omega, by rw [hold i hi]; exact hs⟩
      · refine Or.inr ⟨y, by omega, ?_, ?_, q4, q5, q6⟩
        · intro i hi
          rcases Nat.lt_or_ge i st.size with h' | h'
          · rw [hold i h']; exact q2 i h'
          · have : i = st.size := by omega
            subst this
            rw [hnew]; omega
        · intro i hi
          rcases Nat.lt_or_ge i st.size with h' | h'
          · rw [hold i h']; exact q3 i h'
          · have : i = st.size := by omega
            subst this
            rw [hnew]; omega
    · have : x = a := by omega
      subst this
      exact Or.inl ⟨st.size, by omega, hnew⟩
  · intro k
    rcases hinv.frame k with h | ⟨h, hb⟩
    · exact Or.inl h
    · exact Or.inr ⟨by omega, hb⟩

/-- The characters between the loop-start on top of the stack and the loop-end
being scanned are balanced. -/
theorem balanced_between (src : List Char) (d a n : Nat)
    (hd : src[d]? = some OPERATOR_JUMP_IF_ZERO) (hda : d < a)
    (hdepth : opens src a = closes src a + (n + 1))
    (p3 : opens src d = closes src d + n)
    (p4 : ∀ j, d < j → j ≤ a → closes src j + n + 1 ≤ opens src j) :
    balanced (between src d a) := by
  have ho := opens_succ src d _ hd
  have hcl := closes_succ src d _ hd
  simp only [if_true, show ¬ (OPERATOR_JUMP_IF_ZERO = OPERATOR_JUMP_UNLESS_ZERO) by decide,
    if_false, Nat.add_zero] at ho hcl
  constructor
  · intro k _
    unfold opens closes
    rw [take_between]
    have hj1 : d + 1 ≤ min (d + 1 + k) a := by omega
    have hj2 : min (d + 1 + k) a ≤ a := by omega
    have e1 := count_drop_take OPERATOR_JUMP_IF_ZERO src (d + 1) _ hj1
    have e2 := count_drop_take OPERATOR_JUMP_UNLESS_ZERO src (d + 1) _ hj1
    have e3 := p4 (min (d + 1 + k) a) (by omega) hj2
    unfold opens at ho p3 e3
    unfold closes at hcl p3 e3
    omega
  · unfold between
    have e1 := count_drop_take OPERATOR_JUMP_IF_ZERO src (d + 1) a (by omega)
    have e2 := count_drop_take OPERATOR_JUMP_UNLESS_ZERO src (d + 1) a (by omega)
    unfold opens at ho p3 hdepth
    unfold closes at hcl p3 hdepth
    omega

/-- The invariant is kept by an iteration on a loop-end that pops its loop-start
and records the pair in both directions. -/
theorem scan_inv_pop (src : List Char) (m0 : hashmap) (a d : Nat) (st st' : stack) (m : hashmap)
    (hinv : scan_inv src m0 a st m) (hc : src[a]? = some OPERATOR_JUMP_UNLESS_ZERO)
    (hpop : stack_pop st = some (d, st')) :
    scan_inv src m0 (a + 1) st' (hashmap_set (hashmap_set m a d) d a) := by
  have ho := opens_succ src a _ hc
  have hcl := closes_succ src a _ hc
  simp only [if_true, show ¬ (OPERATOR_JUMP_UNLESS_ZERO = OPERATOR_JUMP_IF_ZERO) by decide,
    if_false, Nat.add_zero] at ho hcl
  obtain ⟨hpos, hd, hsize, hitems⟩ := stack_pop_some st st' d hpop
  have hdepth := hinv.depth
  obtain ⟨t1, t2, t3, t4⟩ := hinv.pending (st.size - 1) (by omega)
  rw [← hd] at t1 t2 t3 t4
  have hget : ∀ k, k ≠ a → k ≠ d →
      hashmap_get (hashmap_set (hashmap_set m a d) d a) k = hashmap_get m k := by
    intro k h1 h2
    rw [hashmap_get_set, if_neg h2, hashmap_get_set, if_neg h1]
  have hgetd : hashmap_get (hashmap_set (hashmap_set m a d) d a) d = some a := by
    rw [hashmap_get_set, if_pos rfl]
  have hgeta : hashmap_get (hashmap_set (hashmap_set m a d) d a) a = some d := by
    rw [hashmap_get_set, if_neg (by omega), hashmap_get_set, if_pos rfl]
  have hdistinct : ∀ i, i < st'.size → st'.items i ≠ d := by
    intro i hi heq
    rw [hitems] at heq
    obtain ⟨p1, p2, p3, p4⟩ := hinv.pending i (by omega)
    rw [heq] at p3
    omega
  have hbelow : ∀ i, i < st'.size → st'.items i ≠ a := by
    intro i hi heq
    rw [hitems] at heq
    obtain ⟨p1, p2, p3, p4⟩ := hinv.pending i (by omega)
    omega
  have hpair : pair_ok src d a :=
    ⟨t2, hc, t1, balanced_between src d a (st.size - 1) t2 t1 (by omega) t3 t4⟩
  refine ⟨getElem?_lt_length src a _ hc, by omega, ?_, ?_, ?_, ?_⟩
  · intro j hj
    rcases Nat.lt_or_ge j (a + 1) with h | h
    · exact hinv.nonneg j (by omega)
    · have : j = a + 1 := by omega
      subst this
      omega
  · intro i hi
    obtain ⟨p1, p2, p3, p4⟩ := hinv.pending i (by omega)
    rw [hitems]
    refine ⟨by omega, p2, p3, ?_⟩
    intro j hj1 hj2
    rcases Nat.lt_or_ge j (a + 1) with h' | h'
    · exact p4 j hj1 (by omega)
    · have : j = a + 1 := by omega
      subst this
      omega
  · intro x hx hb
    rcases Nat.lt_or_ge x a with h | h
    · rcases hinv.paired x h hb with ⟨i, hi, hs⟩ | ⟨y, q1, q2, q3, q4, q5, q6⟩
      · rcases Nat.lt_or_ge i (st.size - 1) with h' | h'
        · exact Or.inl ⟨i, by omega, by rw [hitems]; exact hs⟩
        · have hi' : i = st.size - 1 := by omega
          have hxd : x = d := by rw [hd, ← hi', hs]
          subst hxd
          exact Or.inr ⟨a, by omega, hbelow, hdistinct, hgetd, hgeta, Or.inl hpair⟩
      · have hxd : x ≠ d := by
          intro heq
          exact q3 (st.size - 1) (by omega) (by rw [← hd, heq])
        have hyd : y ≠ d := by
          intro heq
          exact q2 (st.size - 1) (by omega) (by rw [← hd, heq])
        refine Or.inr ⟨y, by omega, ?_, ?_, ?_, ?_, q6⟩
        · intro i hi
          rw [hitems]
          exact q2 i (by omega)
        · intro i hi
          rw [hitems]
          exact q3 i (by omega)
        · rw [hget x (by omega) hxd]; exact q4
        · rw [hget y (by omega) hyd]; exact q5
    · have : x = a := by omega
      subst this
      exact Or.inr ⟨d, by omega, hdistinct, hbelow, hgeta, hgetd, Or.inr hpair⟩
  · intro k
    by_cases hka : k = a
    · subst hka
      exact Or.inr ⟨by omega, Or.inr hc⟩
    · by_cases hkd : k = d
      · subst hkd
        exact Or.inr ⟨by omega, Or.inl t2⟩
      · rw [hget k hka hkd]
        rcases hinv.frame k with h | ⟨h, hb⟩
        · exact Or.inl h
        · exact Or.inr ⟨by omega, hb⟩


/-- Whenever the scan loop returns, it returns in one of the three ways of
`scan_exit`, and only the bracket map of the interpreter struct has changed. -/
theorem init_bracket_map_loop_exit (itp : interpreter) (src : List Char) (m0 : hashmap) :
    ∀ (rest : List Char) (a : Nat) (st : stack) (m : hashmap) (out : init_outcome),
      src.drop a = rest → scan_inv src m0 a st m →
      init_bracket_map_loop itp rest a st m = some out →
      scan_exit src m0 out ∧
        out.interpreter = { itp with bracket_map := out.interpreter.bracket_map } := by
  intro rest
  induction rest with
  | nil =>
    intro a st m out hdrop hinv hrun
    have ha : a = src.length := by
      have h1 := hinv.bound
      have h2 : src.length ≤ a := by
        have := congrArg List.length hdrop
        simp only [List.length_drop, List.length_nil] at this
        omega
      omega
    subst ha
    simp only [init_bracket_map_loop] at hrun
    by_cases he : stack_empty st = true
    · simp only [he, Bool.not_true, if_false, Bool.false_eq_true, Option.some.injEq] at hrun
      subst hrun
      refine ⟨Or.inl ⟨rfl, rfl, st, hinv, ?_⟩, rfl⟩
      simpa [stack_empty] using he
    · simp only [Bool.not_eq_true] at he
      simp only [he, Bool.not_false, if_true, Option.some.injEq] at hrun
      subst hrun
      refine ⟨Or.inr (Or.inr ⟨rfl, rfl, st, hinv, ?_⟩), rfl⟩
      have : st.size ≠ 0 := by simpa [stack_empty] using he
      omega
  | cons c rest ih =>
    intro a st m out hdrop hinv hrun
    obtain ⟨hc, hdrop'⟩ := drop_eq_cons src a c rest hdrop
    simp only [init_bracket_map_loop] at hrun
    by_cases h1 : c = OPERATOR_JUMP_IF_ZERO
    · subst h1
      simp only [if_true] at hrun
      cases hpush : stack_push st a with
      | none => simp [hpush] at hrun
      | some st' =>
        simp only [hpush] at hrun
        exact ih (a + 1) st' m out hdrop' (scan_inv_push src m0 a st st' m hinv hc hpush) hrun
    · simp only [h1, if_false] at hrun
      by_cases h2 : c = OPERATOR_JUMP_UNLESS_ZERO
      · subst h2
        simp only [if_true] at hrun
        by_cases he : stack_empty st = true
        · simp only [he, if_true, Option.some.injEq] at hrun
          subst hrun
          refine ⟨Or.inr (Or.inl ⟨rfl, rfl, a, st, hc, hinv, ?_⟩), rfl⟩
          simpa [stack_empty] using he
        · simp only [he, if_false] at hrun
          cases hpop : stack_pop st with
          | none => simp [hpop] at hrun
          | some r =>
            obtain ⟨d, st'⟩ := r
            simp only [hpop] at hrun
            exact ih (a + 1) st' _ out hdrop' (scan_inv_pop src m0 a d st st' m hinv hc hpop) hrun
      · simp only [h2, if_false] at hrun
        exact ih (a + 1) st m out hdrop' (scan_inv_other src m0 a st m c hinv hc h1 h2) hrun

/-- The three ways `init_bracket_map` returns. -/
theorem init_bracket_map_exit (itp : interpreter) (out : init_outcome)
    (hlen : itp.source_length = itp.source.length) (h : init_bracket_map itp = some out) :
    scan_exit itp.source itp.bracket_map out ∧
      out.interpreter = { itp with bracket_map := out.interpreter.bracket_map } := by
  unfold init_bracket_map at h
  rw [hlen, List.take_length] at h
  exact init_bracket_map_loop_exit itp itp.source itp.bracket_map itp.source 0 stack_init
    itp.bracket_map out rfl (scan_inv_init _ _) h


/-! ## What the scan establishes -/

/-- When `init_bracket_map` returns, it returns `true` exactly on the balanced
sources. -/
theorem scan_exit_success_iff (src : List Char) (m0 : hashmap) (out : init_outcome)
    (h : scan_exit src m0 out) : out.success = true ↔ balanced src := by
  rcases h with ⟨hs, _, st, hinv, hsz⟩ | ⟨hs, _, a, st, hc, hinv, hsz⟩ | ⟨hs, _, st, hinv, hsz⟩
  · refine ⟨fun _ => ⟨hinv.nonneg, ?_⟩, fun _ => hs⟩
    have := hinv.depth
    rw [opens_length, closes_length, hsz] at this
    exact this
  · refine ⟨fun h' => ?_, fun hb => ?_⟩
    · rw [hs] at h'
      exact absurd h' (by simp)
    · exfalso
      have h1 := hb.1 (a + 1) (getElem?_lt_length src a _ hc)
      have ho := opens_succ src a _ hc
      have hcl := closes_succ src a _ hc
      simp only [if_true, show ¬ (OPERATOR_JUMP_UNLESS_ZERO = OPERATOR_JUMP_IF_ZERO) by decide,
        if_false, Nat.add_zero] at ho hcl
      have := hinv.depth
      omega
  · refine ⟨fun h' => ?_, fun hb => ?_⟩
    · rw [hs] at h'
      exact absurd h' (by simp)
    · exfalso
      have h2 := hb.2
      have := hinv.depth
      rw [opens_length, closes_length] at this
      omega

/-- With an empty stack, every bracket below the scan address is paired in the
map, in both directions, with its matching bracket. -/
theorem scan_inv_pairs (src : List Char) (m0 : hashmap) (a : Nat) (st : stack) (m : hashmap)
    (hinv : scan_inv src m0 a st m) (hsz : st.size = 0) (x : Nat) (hx : x < a)
    (hb : src[x]? = some OPERATOR_JUMP_IF_ZERO ∨ src[x]? = some OPERATOR_JUMP_UNLESS_ZERO) :
    ∃ y, y < a ∧ hashmap_get m x = some y ∧ hashmap_get m y = some x ∧
      (pair_ok src x y ∨ pair_ok src y x) := by
  rcases hinv.paired x hx hb with ⟨i, hi, _⟩ | ⟨y, q1, _, _, q4, q5, q6⟩
  · omega
  · exact ⟨y, q1, q4, q5, q6⟩

/-- On a map that starts empty, the scan before address `a` with an empty stack
has recorded entries for bracket addresses below `a` only, with values below
`a`. -/
theorem scan_inv_entries (src : List Char) (m0 : hashmap) (a : Nat) (st : stack) (m : hashmap)
    (hinv : scan_inv src (hashmap_init m0) a st m) (hsz : st.size = 0) (k d : Nat)
    (hk : hashmap_get m k = some d) :
    k < a ∧ d < a ∧
      (src[k]? = some OPERATOR_JUMP_IF_ZERO ∨ src[k]? = some OPERATOR_JUMP_UNLESS_ZERO) := by
  rcases hinv.frame k with h | ⟨h, hb⟩
  · rw [hashmap_get_init, hk] at h
    exact absurd h (by simp)
  · obtain ⟨y, hy, g1, _, _⟩ := scan_inv_pairs src _ a st m hinv hsz k h hb
    rw [hk] at g1
    simp only [Option.some.injEq] at g1
    subst g1
    exact ⟨h, hy, hb⟩

theorem init_bracket_map_success_iff (itp : interpreter) (out : init_outcome)
    (hlen : itp.source_length = itp.source.length) (h : init_bracket_map itp = some out) :
    out.success = true ↔ balanced itp.source :=
  scan_exit_success_iff _ _ _ (init_bracket_map_exit itp out hlen h).1

theorem init_bracket_map_success_inv (itp : interpreter) (out : init_outcome)
    (hlen : itp.source_length = itp.source.length) (h : init_bracket_map itp = some out)
    (hs : out.success = true) :
    ∃ st, scan_inv itp.source itp.bracket_map itp.source.length st out.interpreter.bracket_map ∧
      st.size = 0 := by
  rcases (init_bracket_map_exit itp out hlen h).1 with ⟨_, _, hst⟩ | ⟨hf, _⟩ | ⟨hf, _⟩
  · exact hst
  · rw [hs] at hf
    exact absurd hf (by simp)
  · rw [hs] at hf
    exact absurd hf (by simp)

theorem interpreter_init_eq (itp : interpreter) (source : List Char) :
    interpreter_init itp source = init_bracket_map (blank source) := rfl

theorem two_loops_outcome_eq : init_bracket_map (blank two_loops) = some two_loops_outcome := by
  simp [two_loops_outcome]

/-! ## The stack block holds three elements -/

/-- The block of `stack_init` is a small block. -/
theorem stack_init_small_block : small_block stack_init :=
  ⟨rfl, Or.inl rfl⟩

/-- A `stack_push` on a stack of at most two elements stays inside the block,
whether it reallocates or not: `realloc` is asked for 2 or 4 bytes and the
block keeps its 24 bytes. -/
theorem stack_push_small (st : stack) (v : Nat) (h : small_block st) (hs : st.size ≤ 2) :
    ∃ st', stack_push st v = some st' ∧ small_block st' := by
  obtain ⟨hb, hc⟩ := h
  unfold stack_push
  by_cases he : st.size = st.capacity
  · simp only [he, if_true, stack_reallocate]
    have hcap : st.capacity = 1 ∨ st.capacity = 2 := by
      rcases hc with hc | hc | hc
      · exact Or.inl hc
      · exact Or.inr hc
      · omega
    have hu : usable_size (st.capacity * 2) = 24 := by
      rcases hcap with hc' | hc' <;> rw [hc'] <;> rfl
    rw [if_pos (by rw [hu]; unfold SIZEOF_STACK_VALUE_T; rcases hcap with hc' | hc' <;> omega)]
    refine ⟨_, rfl, hu, ?_⟩
    rcases hcap with hc' | hc'
    · exact Or.inr (Or.inl (by simp only [hc']))
    · exact Or.inr (Or.inr (by simp only [hc']))
  · simp only [he, if_false]
    rw [if_pos (by rw [hb]; unfold SIZEOF_STACK_VALUE_T; omega)]
    exact ⟨_, rfl, hb, hc⟩

/-- The fourth `stack_push` stores the 8-byte `items[3]` outside the block:
`stack_reallocate` has asked `realloc` for 4 bytes, not for 4 elements. -/
theorem stack_push_full (st : stack) (v : Nat) (h : small_block st) (hs : st.size = 3) :
    stack_push st v = none := by
  obtain ⟨hb, hc⟩ := h
  unfold stack_push
  have he : ¬ (st.size = st.capacity) := by
    rcases hc with hc | hc | hc <;> omega
  simp only [he, if_false]
  rw [if_neg (by rw [hb, hs]; decide)]

/-- A `stack_pop` on a stack of one to three elements loads inside the block. -/
theorem stack_pop_small (st : stack) (h : small_block st) (h1 : 0 < st.size)
    (h3 : st.size ≤ 3) :
    stack_pop st = some (st.items (st.size - 1), { st with size := st.size - 1 }) ∧
      small_block { st with size := st.size - 1 } := by
  obtain ⟨hb, hc⟩ := h
  refine ⟨?_, hb, hc⟩
  unfold stack_pop stack_top
  rw [if_pos ⟨h1, by rw [hb]; unfold SIZEOF_STACK_VALUE_T; omega⟩]

/-- With a stack block that has room for four elements, the same scan pairs
the nested loops of `[[[[]]]]`: the defect is confined to `stack_reallocate`. -/
theorem init_bracket_map_loop_with_room :
    (init_bracket_map_loop (blank "[[[[]]]]".toList) "[[[[]]]]".toList 0
        { stack_init with capacity := 4, block_bytes := SIZEOF_STACK_VALUE_T * 4 }
        (blank "[[[[]]]]".toList).bracket_map).map
      (fun out => (out.success, (List.range 8).map (hashmap_get out.interpreter.bracket_map))) =
      some (true, [some 7, some 6, some 5, some 4, some 3, some 2, some 1, some 0]) := by
  decide!

/-- When at most three loops are open at any point, every `stack_push` and
`stack_pop` of the scan stays inside the block, and `init_bracket_map`
returns. -/
theorem init_bracket_map_loop_total (itp : interpreter) (src : List Char) (m0 : hashmap)
    (hdepth : ∀ k, k ≤ src.length → opens src k ≤ closes src k + 3) :
    ∀ (rest : List Char) (a : Nat) (st : stack) (m : hashmap),
      src.drop a = rest → scan_inv src m0 a st m → small_block st →
      ∃ out, init_bracket_map_loop itp rest a st m = some out := by
  intro rest
  induction rest with
  | nil =>
    intro a st m _ _ _
    simp only [init_bracket_map_loop]
    split <;> exact ⟨_, rfl⟩
  | cons c rest ih =>
    intro a st m hdrop hinv hblock
    obtain ⟨hc, hdrop'⟩ := drop_eq_cons src a c rest hdrop
    have hlt := getElem?_lt_length src a c hc
    have hd := hinv.depth
    simp only [init_bracket_map_loop]
    by_cases h1 : c = OPERATOR_JUMP_IF_ZERO
    · subst h1
      simp only [if_true]
      have ho := opens_succ src a _ hc
      have hcl := closes_succ src a _ hc
      simp only [if_true, show ¬ (OPERATOR_JUMP_IF_ZERO = OPERATOR_JUMP_UNLESS_ZERO) by decide,
        if_false, Nat.add_zero] at ho hcl
      have hsz : st.size ≤ 2 := by
        have := hdepth (a + 1) hlt
        omega
      obtain ⟨st', hpush, hblock'⟩ := stack_push_small st a hblock hsz
      rw [hpush]
      exact ih (a + 1) st' m hdrop' (scan_inv_push src m0 a st st' m hinv hc hpush) hblock'
    · simp only [h1, if_false]
      by_cases h2 : c = OPERATOR_JUMP_UNLESS_ZERO
      · subst h2
        simp only [if_true]
        by_cases he : stack_empty st = true
        · simp only [he, if_true]
          exact ⟨_, rfl⟩
        · simp only [he, if_false]
          have h0 : st.size ≠ 0 := by simpa [stack_empty] using he
          have h3 : st.size ≤ 3 := by
            have := hdepth a (by omega)
            omega
          obtain ⟨hpop, hblock'⟩ := stack_pop_small st hblock (by omega) h3
          rw [hpop]
          exact ih (a + 1) _ _ hdrop' (scan_inv_pop src m0 a _ st _ m hinv hc hpop) hblock'
      · simp only [h2, if_false]
        exact ih (a + 1) st m hdrop' (scan_inv_other src m0 a st m c hinv hc h1 h2) hblock

theorem interpreter_init_total (itp : interpreter) (src : List Char)
    (hdepth : ∀ k, k ≤ src.length → opens src k ≤ closes src k + 3) :
    ∃ out, interpreter_init itp src = some out := by
  rw [interpreter_init_eq]
  unfold init_bracket_map
  have : (blank src).source.take (blank src).source_length = src := by
    simp [blank]
  rw [this]
  exact init_bracket_map_loop_total (blank src) src (blank src).bracket_map hdepth src 0
    stack_init _ rfl (scan_inv_init _ _) stack_init_small_block

/-- On the sources in which at most three loops are open at any point,
`interpreter_init` returns, and returns `true` exactly when the source is
balanced. -/
theorem interpreter_init_shallow_iff (itp : interpreter) (src : List Char)
    (hdepth : ∀ k, k ≤ src.length → opens src k ≤ closes src k + 3) :
    ∃ out, interpreter_init itp src = some out ∧ (out.success = true ↔ balanced src) := by
  obtain ⟨out, hout⟩ := interpreter_init_total itp src hdepth
  refine ⟨out, hout, ?_⟩
  rw [interpreter_init_eq] at hout
  exact init_bracket_map_success_iff (blank src) out rfl hout

/-- When a fourth loop opens inside three open loops before any unmatched
loop-end, the scan stores outside the stack block: `init_bracket_map` has no
defined result. -/
theorem init_bracket_map_loop_deep (itp : interpreter) (src : List Char) (m0 : hashmap)
    (k : Nat) (hk : k ≤ src.length) (hdeep : closes src k + 4 ≤ opens src k)
    (hno : ∀ j, j ≤ k → closes src j ≤ opens src j) :
    ∀ (rest : List Char) (a : Nat) (st : stack) (m : hashmap),
      src.drop a = rest → scan_inv src m0 a st m → small_block st →
      st.size ≤ 3 → a ≤ k →
      init_bracket_map_loop itp rest a st m = none := by
  intro rest
  induction rest with
  | nil =>
    intro a st m hdrop hinv _ hsz hak
    exfalso
    have h2 : src.length ≤ a := by
      have := congrArg List.length hdrop
      simp only [List.length_drop, List.length_nil] at this
      omega
    have hka : k = a := by omega
    subst hka
    have := hinv.depth
    omega
  | cons c rest ih =>
    intro a st m hdrop hinv hblock hsz hak
    obtain ⟨hc, hdrop'⟩ := drop_eq_cons src a c rest hdrop
    have hd := hinv.depth
    have hlt : a < k := by
      rcases Nat.lt_or_ge a k with h | h
      · exact h
      · exfalso
        have hka : k = a := by omega
        subst hka
        omega
    have ho := opens_succ src a c hc
    have hcl := closes_succ src a c hc
    simp only [init_bracket_map_loop]
    by_cases h1 : c = OPERATOR_JUMP_IF_ZERO
    · subst h1
      simp only [if_true]
      by_cases hs3 : st.size = 3
      · rw [stack_push_full st a hblock hs3]
      · obtain ⟨st', hpush, hblock'⟩ := stack_push_small st a hblock (by omega)
        rw [hpush]
        have hsize := (stack_push_some st st' a hpush).1
        exact ih (a + 1) st' m hdrop' (scan_inv_push src m0 a st st' m hinv hc hpush) hblock'
          (by omega) hlt
    · simp only [h1, if_false]
      by_cases h2 : c = OPERATOR_JUMP_UNLESS_ZERO
      · subst h2
        simp only [if_true, show ¬ (OPERATOR_JUMP_UNLESS_ZERO = OPERATOR_JUMP_IF_ZERO) by decide,
          if_false, Nat.add_zero] at ho hcl
        simp only [if_true]
        by_cases he : stack_empty st = true
        · exfalso
          have h0 : st.size = 0 := by simpa [stack_empty] using he
          have := hno (a + 1) hlt
          omega
        · simp only [he, if_false]
          have h0 : st.size ≠ 0 := by simpa [stack_empty] using he
          obtain ⟨hpop, hblock'⟩ := stack_pop_small st hblock (by omega) hsz
          rw [hpop]
          exact ih (a + 1) _ _ hdrop' (scan_inv_pop src m0 a _ st _ m hinv hc hpop) hblock'
            (by show st.size - 1 ≤ 3; omega) hlt
      · simp only [h2, if_false]
        exact ih (a + 1) st m hdrop' (scan_inv_other src m0 a st m c hinv hc h1 h2) hblock
          hsz hlt

/-- On every source in which a fourth loop opens inside three open loops
before any unmatched loop-end, `interpreter_init` has no defined result. -/
theorem interpreter_init_deep (itp : interpreter) (src : List Char) (k : Nat)
    (hk : k ≤ src.length) (hdeep : closes src k + 4 ≤ opens src k)
    (hno : ∀ j, j ≤ k → closes src j ≤ opens src j) :
    interpreter_init itp src = none := by
  rw [interpreter_init_eq]
  unfold init_bracket_map
  have : (blank src).source.take (blank src).source_length = src := by
    simp [blank]
  rw [this]
  exact init_bracket_map_loop_deep (blank src) src (blank src).bracket_map k hk hdeep hno src 0
    stack_init _ rfl (scan_inv_init _ _) stack_init_small_block (Nat.zero_le _) (Nat.zero_le _)

/-! ## The bracket resolver -/

/-- C1 (the code departs from the claim).  The source `[[[[]]]]` is balanced
and properly nested, so `interpreter_init` should return `true` on it; but the
fourth `stack_push` of `init_bracket_map` stores `items[3]` outside the heap
block, for which `stack_reallocate` has asked `realloc` for `new_capacity`
bytes and not for `new_capacity` elements, so the call has no defined
result. -/
theorem interpreter_init_undefined_on_nested_source :
    balanced "[[[[]]]]".toList ∧ ∀ itp, interpreter_init itp "[[[[]]]]".toList = none :=
  ⟨by decide, fun _ => rfl⟩

/-- The loop-starts of `[[]]` and of `+[>++[[-]]<-]` are on the stack together,
two and three at a time; `interpreter_init` returns `true` on both sources, and
the bracket map pairs each bracket with its partner. -/
theorem nested_loops_map :
    ((interpreter_init (blank []) "[[]]".toList).map fun out =>
        (out.success, (List.range 4).map (hashmap_get out.interpreter.bracket_map))) =
        some (true, [some 3, some 2, some 1, some 0]) ∧
      nested_loops_outcome.success = true ∧
      (List.range 13).map (hashmap_get nested_loops_outcome.interpreter.bracket_map) =
        [none, some 12, none, none, none, some 9, some 8, none, some 6, some 5, none, none,
          some 1] := by
  decide!

/-- Where the scan stays inside the stack block (at most three loops are open
at any point), the first unmatched loop-end is reported: `interpreter_init`
fails with the message for the loop-end, and every pair recorded lies below
the address of that loop-end. -/
theorem interpreter_init_loop_end_shallow (itp : interpreter) (src : List Char)
    (hdepth : ∀ k, k ≤ src.length → opens src k ≤ closes src k + 3) (a : Nat)
    (ha : src[a]? = some OPERATOR_JUMP_UNLESS_ZERO) (hcl : opens src a = closes src a)
    (hfirst : ∀ j, j ≤ a → closes src j ≤ opens src j) :
    ∃ out, interpreter_init itp src = some out ∧ out.success = false ∧
      out.stderr = mismatched_message OPERATOR_JUMP_UNLESS_ZERO ∧
      ∀ k d, hashmap_get out.interpreter.bracket_map k = some d → k < a ∧ d < a := by
  obtain ⟨out, hout⟩ := interpreter_init_total itp src hdepth
  refine ⟨out, hout, ?_⟩
  rw [interpreter_init_eq] at hout
  have hexit := (init_bracket_map_exit (blank src) out rfl hout).1
  have hlt := getElem?_lt_length src a _ ha
  have ho := opens_succ src a _ ha
  have hc := closes_succ src a _ ha
  simp only [if_true, show ¬ (OPERATOR_JUMP_UNLESS_ZERO = OPERATOR_JUMP_IF_ZERO) by decide,
    if_false, Nat.add_zero] at ho hc
  simp only [blank] at hexit
  rcases hexit with ⟨_, _, st, hinv, _⟩ | ⟨hs, he, a', st, hc', hinv, hsz⟩ | ⟨_, _, st, hinv, _⟩
  · exfalso
    have := hinv.nonneg (a + 1) hlt
    omega
  · have ho' := opens_succ src a' _ hc'
    have hcl' := closes_succ src a' _ hc'
    simp only [if_true, show ¬ (OPERATOR_JUMP_UNLESS_ZERO = OPERATOR_JUMP_IF_ZERO) by decide,
      if_false, Nat.add_zero] at ho' hcl'
    have hsize := hinv.depth
    have haa : a' = a := by
      rcases Nat.lt_trichotomy a' a with hlt' | heq | hgt
      · exfalso
        have := hfirst (a' + 1) hlt'
        omega
      · exact heq
      · exfalso
        have := hinv.nonneg (a + 1) hgt
        omega
    subst haa
    refine ⟨hs, he, ?_⟩
    intro k d hk
    obtain ⟨h1, h2, _⟩ := scan_inv_entries _ _ _ _ _ hinv hsz k d hk
    exact ⟨h1, h2⟩
  · exfalso
    have := hinv.nonneg (a + 1) hlt
    omega

/-- C5 (the code departs from the claim).  In the source `[[[[]]]]]` the
loop-end at address 8 is unmatched: every earlier loop-start has been closed.
`init_bracket_map` should fail there with the message for the loop-end; but the
fourth `stack_push` stores `items[3]` outside the heap block, for which
`stack_reallocate` has asked `realloc` for `new_capacity` bytes and not for
`new_capacity` elements, so the call has no defined result and reports
nothing. -/
theorem loop_end_error_undefined_on_nested_source :
    ("[[[[]]]]]".toList[8]? = some OPERATOR_JUMP_UNLESS_ZERO ∧
        opens "[[[[]]]]]".toList 8 = closes "[[[[]]]]]".toList 8 ∧
        ∀ j, j ≤ 8 → closes "[[[[]]]]]".toList j ≤ opens "[[[[]]]]]".toList j) ∧
      ∀ itp, interpreter_init itp "[[[[]]]]]".toList = none :=
  ⟨by decide, fun _ => rfl⟩

/-- C6, as stated, fails on the source `][`: its loop-start at address 1 is
never closed, yet `interpreter_init` reports the mismatched loop-end of
address 0, not a mismatched loop-start. -/
theorem loop_start_error_counterexample :
    never_closed "][".toList 1 ∧
      ∃ out, interpreter_init (blank []) "][".toList = some out ∧ out.success = false ∧
        out.stderr = mismatched_message OPERATOR_JUMP_UNLESS_ZERO ∧
        out.stderr ≠ mismatched_message OPERATOR_JUMP_IF_ZERO := by
  refine ⟨⟨by decide, ?_⟩, _, rfl, rfl, rfl, by decide⟩
  rintro c ⟨_, h2, h3, _⟩
  rw [List.getElem?_eq_none (by simpa using h3)] at h2
  exact absurd h2 (by simp)

/-- C6, amended.  For any source that has a loop-start never closed, in which
no loop-end is unmatched (no initial segment has more loop-ends than
loop-starts) and at most three loops are open at any point, `interpreter_init`
fails with the message for the mismatched loop-start, after the scan of the
whole source: every loop-end of the source has its pair recorded. -/
theorem loop_start_error_amended (itp : interpreter) (src : List Char) (o : Nat)
    (ho : never_closed src o) (hno : ∀ k, k ≤ src.length → closes src k ≤ opens src k)
    (hdepth : ∀ k, k ≤ src.length → opens src k ≤ closes src k + 3) :
    ∃ out, interpreter_init itp src = some out ∧ out.success = false ∧
      out.stderr = mismatched_message OPERATOR_JUMP_IF_ZERO ∧
      ∀ c, src[c]? = some OPERATOR_JUMP_UNLESS_ZERO →
        ∃ o', hashmap_get out.interpreter.bracket_map c = some o' ∧
          hashmap_get out.interpreter.bracket_map o' = some c ∧ pair_ok src o' c := by
  obtain ⟨out, hout⟩ := interpreter_init_total itp src hdepth
  refine ⟨out, hout, ?_⟩
  rw [interpreter_init_eq] at hout
  have hexit := (init_bracket_map_exit (blank src) out rfl hout).1
  simp only [blank] at hexit
  rcases hexit with ⟨_, _, st, hinv, hsz⟩ | ⟨_, _, a, st, hc, hinv, hsz⟩ | ⟨hs, he, st, hinv, hsz⟩
  · exfalso
    obtain ⟨y, _, _, _, hp⟩ := scan_inv_pairs _ _ _ _ _ hinv hsz o
      (getElem?_lt_length _ _ _ ho.1) (Or.inl ho.1)
    rcases hp with hp | ⟨_, p2, _, _⟩
    · exact ho.2 y hp
    · rw [ho.1] at p2
      exact absurd p2 (by decide)
  · exfalso
    have h1 := hno (a + 1) (getElem?_lt_length src a _ hc)
    have ho' := opens_succ src a _ hc
    have hcl := closes_succ src a _ hc
    simp only [if_true, show ¬ (OPERATOR_JUMP_UNLESS_ZERO = OPERATOR_JUMP_IF_ZERO) by decide,
      if_false, Nat.add_zero] at ho' hcl
    have := hinv.depth
    omega
  · refine ⟨hs, he, ?_⟩
    intro c hc
    rcases hinv.paired c (getElem?_lt_length _ _ _ hc) (Or.inr hc) with
      ⟨i, hi, hs'⟩ | ⟨y, _, _, _, q4, q5, q6⟩
    · exfalso
      obtain ⟨_, p2, _, _⟩ := hinv.pending i hi
      rw [hs', hc] at p2
      exact absurd p2 (by decide)
    · rcases q6 with ⟨p1, _, _, _⟩ | hp
      · rw [hc] at p1
        exact absurd p1 (by decide)
      · exact ⟨y, q4, q5, hp⟩

/-- In `[[[-]][` the loop-start of address 0 is never closed: the loop-ends of
the addresses 4 and 5 close the loops opened at the addresses 2 and 1. -/
theorem never_closed_first : never_closed "[[[-]][".toList 0 := by
  refine ⟨by decide, ?_⟩
  rintro c ⟨_, h2, _, h4⟩
  have hc := getElem?_lt_length _ _ _ h2
  have hc7 : c < 7 := hc
  interval_cases c
  · exact absurd h2 (by decide)
  · exact absurd h2 (by decide)
  · exact absurd h2 (by decide)
  · exact absurd h4 (by decide)
  · exact absurd h4 (by decide)
  · exact absurd h2 (by decide)

/-- The amended statement of C6 on the source `[[[-]][`, in which three loops
are open at the address 3 and the loop-starts of the addresses 0 and 6 are
never closed. -/
theorem loop_start_error_amended_witness :
    never_closed "[[[-]][".toList 0 ∧
      (∀ k, k ≤ "[[[-]][".toList.length →
        closes "[[[-]][".toList k ≤ opens "[[[-]][".toList k) ∧
      (∀ k, k ≤ "[[[-]][".toList.length →
        opens "[[[-]][".toList k ≤ closes "[[[-]][".toList k + 3) ∧
      ∃ out, interpreter_init (blank []) "[[[-]][".toList = some out ∧ out.success = false ∧
        out.stderr = mismatched_message OPERATOR_JUMP_IF_ZERO ∧
        ∀ c, "[[[-]][".toList[c]? = some OPERATOR_JUMP_UNLESS_ZERO →
          ∃ o', hashmap_get out.interpreter.bracket_map c = some o' ∧
            hashmap_get out.interpreter.bracket_map o' = some c ∧
            pair_ok "[[[-]][".toList o' c :=
  ⟨never_closed_first, by decide, by decide,
    loop_start_error_amended (blank []) "[[[-]][".toList 0 never_closed_first (by decide)
      (by decide)⟩

/-! ## The run loop of `interpreter_run` -/

theorem current_cell_ref_eq (itp : interpreter) (h : itp.pointer < MEMORY_SIZE) :
    current_cell_ref itp = some ⟨itp.pointer, h⟩ := by
  unfold current_cell_ref
  rw [dif_pos h]

/-- The `switch` of the run loop returns and keeps the invariant, with `pc` still
inside the source, when the bracket map is complete. -/
theorem dispatch_inv (src : List Char) (map : hashmap) (hmap : map_complete src map)
    (p : process) (c : Char) (hinv : run_inv src map p)
    (hc : src[p.interpreter.pc]? = some c) (hpc : p.interpreter.pc < src.length) :
    ∃ q, dispatch c p = some q ∧ q.interpreter.source = src ∧
      q.interpreter.source_length = src.length ∧ q.interpreter.bracket_map = map ∧
      q.interpreter.pc < src.length ∧ q.interpreter.pointer < MEMORY_SIZE := by
  obtain ⟨h1, h2, h3, h4, h5⟩ := hinv
  have href := current_cell_ref_eq p.interpreter h5
  unfold dispatch
  split_ifs with e1 e2 e3 e4 e5 e6 e7 e8
  · refine ⟨_, rfl, h1, h2, h3, hpc, ?_⟩
    exact Nat.mod_lt _ (by decide)
  · refine ⟨_, rfl, h1, h2, h3, hpc, ?_⟩
    simp only [move_pointer_left]
    split_ifs <;> omega
  · simp only [increment_cell, href, Option.map_some']
    exact ⟨_, rfl, h1, h2, h3, hpc, h5⟩
  · simp only [decrement_cell, href, Option.map_some']
    exact ⟨_, rfl, h1, h2, h3, hpc, h5⟩
  · simp only [write_cell_to_stdout, href]
    exact ⟨_, rfl, h1, h2, h3, hpc, h5⟩
  · simp only [replace_cell_with_stdin, href]
    exact ⟨_, rfl, h1, h2, h3, hpc, h5⟩
  · subst e7
    obtain ⟨y, hy, hlt⟩ := hmap _ (Or.inl hc)
    rw [← h3] at hy
    simp only [jump_if_cell_is_zero, href, hy]
    split_ifs
    · exact ⟨_, rfl, h1, h2, h3, hlt, h5⟩
    · exact ⟨_, rfl, h1, h2, h3, hpc, h5⟩
  · subst e8
    obtain ⟨y, hy, hlt⟩ := hmap _ (Or.inr hc)
    rw [← h3] at hy
    simp only [jump_if_cell_is_nonzero, href, hy]
    split_ifs
    · exact ⟨_, rfl, h1, h2, h3, hlt, h5⟩
    · exact ⟨_, rfl, h1, h2, h3, hpc, h5⟩
  · exact ⟨_, rfl, h1, h2, h3, hpc, h5⟩

/-- One iteration of the run loop returns and keeps the invariant. -/
theorem interpreter_run_body_inv (src : List Char) (map : hashmap) (hmap : map_complete src map)
    (p : process) (hinv : run_inv src map p) (hpc : p.interpreter.pc < src.length) :
    ∃ q, interpreter_run_body p = some q ∧ run_inv src map q := by
  have hc : src[p.interpreter.pc]? = some (src[p.interpreter.pc]) :=
    List.getElem?_eq_getElem hpc
  obtain ⟨q, hq, q1, q2, q3, q4, q5⟩ := dispatch_inv src map hmap p _ hinv hc hpc
  unfold interpreter_run_body
  rw [hinv.source_eq, hc]
  simp only [hq, Option.map_some']
  exact ⟨_, rfl, q1, q2, q3, q4, q5⟩

/-- Any number of iterations of the run loop returns and keeps the invariant. -/
theorem interpreter_run_steps_inv (src : List Char) (map : hashmap)
    (hmap : map_complete src map) :
    ∀ (n : Nat) (p : process), run_inv src map p →
      ∃ q, interpreter_run_steps n p = some q ∧ run_inv src map q := by
  intro n
  induction n with
  | zero =>
    intro p hinv
    exact ⟨p, rfl, hinv⟩
  | succ n ih =>
    intro p hinv
    simp only [interpreter_run_steps]
    by_cases hcond : interpreter_run_condition p = true
    · have hpc : p.interpreter.pc < src.length := by
        have := hinv.length_eq
        simp only [interpreter_run_condition, decide_eq_true_eq] at hcond
        omega
      obtain ⟨q, hq, hinv'⟩ := interpreter_run_body_inv src map hmap p hinv hpc
      simp only [hcond, if_true, hq]
      exact ih q hinv'
    · simp only [hcond, if_false]
      exact ⟨p, rfl, hinv⟩


/-- The `switch` of the run loop changes neither the source, nor its length, nor
the bracket map, and keeps the data pointer in range. -/
theorem dispatch_frame (c : Char) (p q : process) (h : dispatch c p = some q) :
    q.interpreter.source = p.interpreter.source ∧
      q.interpreter.source_length = p.interpreter.source_length ∧
      q.interpreter.bracket_map = p.interpreter.bracket_map ∧
      (p.interpreter.pointer < MEMORY_SIZE → q.interpreter.pointer < MEMORY_SIZE) := by
  unfold dispatch at h
  split_ifs at h with e1 e2 e3 e4 e5 e6 e7 e8
  · simp only [Option.some.injEq] at h
    subst h
    exact ⟨rfl, rfl, rfl, fun _ => Nat.mod_lt _ (by decide)⟩
  · simp only [Option.some.injEq] at h
    subst h
    refine ⟨rfl, rfl, rfl, fun hp => ?_⟩
    simp only [move_pointer_left]
    split_ifs <;> omega
  · unfold increment_cell at h
    cases href : current_cell_ref p.interpreter with
    | none => simp [href] at h
    | some r =>
      simp only [href, Option.map_some', Option.some.injEq] at h
      subst h
      exact ⟨rfl, rfl, rfl, fun hp => hp⟩
  · unfold decrement_cell at h
    cases href : current_cell_ref p.interpreter with
    | none => simp [href] at h
    | some r =>
      simp only [href, Option.map_some', Option.some.injEq] at h
      subst h
      exact ⟨rfl, rfl, rfl, fun hp => hp⟩
  · unfold write_cell_to_stdout at h
    cases href : current_cell_ref p.interpreter with
    | none => simp [href] at h
    | some r =>
      simp only [href, Option.some.injEq] at h
      subst h
      exact ⟨rfl, rfl, rfl, fun hp => hp⟩
  · unfold replace_cell_with_stdin at h
    cases href : current_cell_ref p.interpreter with
    | none => simp [href] at h
    | some r =>
      simp only [href, Option.some.injEq] at h
      subst h
      exact ⟨rfl, rfl, rfl, fun hp => hp⟩
  · unfold jump_if_cell_is_zero at h
    cases href : current_cell_ref p.interpreter with
    | none => simp [href] at h
    | some r =>
      simp only [href] at h
      split_ifs at h
      · cases hg : hashmap_get p.interpreter.bracket_map p.interpreter.pc with
        | none => simp [hg] at h
        | some d =>
          simp only [hg, Option.map_some', Option.some.injEq] at h
          subst h
          exact ⟨rfl, rfl, rfl, fun hp => hp⟩
      · simp only [Option.map_some', Option.some.injEq] at h
        subst h
        exact ⟨rfl, rfl, rfl, fun hp => hp⟩
  · unfold jump_if_cell_is_nonzero at h
    cases href : current_cell_ref p.interpreter with
    | none => simp [href] at h
    | some r =>
      simp only [href] at h
      split_ifs at h
      · cases hg : hashmap_get p.interpreter.bracket_map p.interpreter.pc with
        | none => simp [hg] at h
        | some d =>
          simp only [hg, Option.map_some', Option.some.injEq] at h
          subst h
          exact ⟨rfl, rfl, rfl, fun hp => hp⟩
      · simp only [Option.map_some', Option.some.injEq] at h
        subst h
        exact ⟨rfl, rfl, rfl, fun hp => hp⟩
  · simp only [Option.some.injEq] at h
    subst h
    exact ⟨rfl, rfl, rfl, fun hp => hp⟩

/-- One iteration of the run loop changes neither the source, nor its length, nor
the bracket map, and keeps the data pointer in range. -/
theorem interpreter_run_body_frame (p q : process) (h : interpreter_run_body p = some q) :
    q.interpreter.source = p.interpreter.source ∧
      q.interpreter.source_length = p.interpreter.source_length ∧
      q.interpreter.bracket_map = p.interpreter.bracket_map ∧
      (p.interpreter.pointer < MEMORY_SIZE → q.interpreter.pointer < MEMORY_SIZE) := by
  unfold interpreter_run_body at h
  cases hc : p.interpreter.source[p.interpreter.pc]? with
  | none => simp [hc] at h
  | some c =>
    simp only [hc] at h
    cases hd : dispatch c p with
    | none => simp [hd] at h
    | some r =>
      simp only [hd, Option.map_some', Option.some.injEq] at h
      subst h
      exact dispatch_frame c p r hd

theorem dispatch_stdin (c : Char) (p : process) (s : List Nat) (hne : c ≠ OPERATOR_READ) :
    dispatch c { p with stdin := s } = (dispatch c p).map fun q => { q with stdin := s } := by
  unfold dispatch
  split_ifs with e1 e2 e3 e4 e5 e6 e7
  · rfl
  · rfl
  · cases h : increment_cell p.interpreter <;> simp [h]
  · cases h : decrement_cell p.interpreter <;> simp [h]
  · unfold write_cell_to_stdout
    cases h : current_cell_ref p.interpreter <;> simp [h]
  · cases h : jump_if_cell_is_zero p.interpreter <;> simp [h]
  · cases h : jump_if_cell_is_nonzero p.interpreter <;> simp [h]
  · rfl

theorem interpreter_run_body_stdin (p : process) (s : List Nat)
    (hne : ∀ c, c ∈ p.interpreter.source → c ≠ OPERATOR_READ) :
    interpreter_run_body { p with stdin := s } =
      (interpreter_run_body p).map fun q => { q with stdin := s } := by
  unfold interpreter_run_body
  cases hc : p.interpreter.source[p.interpreter.pc]? with
  | none => simp [hc]
  | some c =>
    have hmem : c ∈ p.interpreter.source := List.getElem?_mem hc
    simp only [hc, dispatch_stdin c p s (hne c hmem)]
    cases hd : dispatch c p <;> simp [hd]

/-- A source without the read instruction runs the same way on every input
stream, and leaves the stream untouched. -/
theorem interpreter_run_steps_stdin (s : List Nat) :
    ∀ (n : Nat) (p : process), (∀ c, c ∈ p.interpreter.source → c ≠ OPERATOR_READ) →
      interpreter_run_steps n { p with stdin := s } =
        (interpreter_run_steps n p).map fun q => { q with stdin := s } := by
  intro n
  induction n with
  | zero =>
    intro p _
    rfl
  | succ n ih =>
    intro p hne
    simp only [interpreter_run_steps]
    have hcond : interpreter_run_condition { p with stdin := s } = interpreter_run_condition p :=
      rfl
    rw [hcond]
    by_cases hc : interpreter_run_condition p = true
    · simp only [hc, if_true]
      rw [interpreter_run_body_stdin p s hne]
      cases hb : interpreter_run_body p with
      | none => simp
      | some q =>
        simp only [Option.map_some']
        have hsrc := (interpreter_run_body_frame p q hb).1
        exact ih q (by rw [hsrc]; exact hne)
    · simp only [hc, if_false, Option.map_some']
      rfl

/-- The `switch` of the run loop returns when the data pointer is in range and the
bracket map has an entry for `pc` at a bracket. -/
theorem dispatch_total (c : Char) (p : process) (hp : p.interpreter.pointer < MEMORY_SIZE)
    (hmap : c = OPERATOR_JUMP_IF_ZERO ∨ c = OPERATOR_JUMP_UNLESS_ZERO →
      ∃ d, hashmap_get p.interpreter.bracket_map p.interpreter.pc = some d) :
    ∃ q, dispatch c p = some q := by
  have href := current_cell_ref_eq p.interpreter hp
  unfold dispatch
  split_ifs with e1 e2 e3 e4 e5 e6 e7 e8
  · exact ⟨_, rfl⟩
  · exact ⟨_, rfl⟩
  · simp only [increment_cell, href, Option.map_some']
    exact ⟨_, rfl⟩
  · simp only [decrement_cell, href, Option.map_some']
    exact ⟨_, rfl⟩
  · simp only [write_cell_to_stdout, href]
    exact ⟨_, rfl⟩
  · simp only [replace_cell_with_stdin, href]
    exact ⟨_, rfl⟩
  · obtain ⟨d, hd⟩ := hmap (Or.inl e7)
    simp only [jump_if_cell_is_zero, href, hd]
    split_ifs <;> exact ⟨_, rfl⟩
  · obtain ⟨d, hd⟩ := hmap (Or.inr e8)
    simp only [jump_if_cell_is_nonzero, href, hd]
    split_ifs <;> exact ⟨_, rfl⟩
  · exact ⟨_, rfl⟩

/-- One iteration of the run loop returns, with the data pointer in range
again, from every state whose data pointer is in range, whose `pc` is inside
the source and whose bracket map has an entry for `pc` when the character there
is a bracket. -/
theorem interpreter_run_body_total (p : process) (c : Char)
    (hp : p.interpreter.pointer < MEMORY_SIZE)
    (hc : p.interpreter.source[p.interpreter.pc]? = some c)
    (hmap : c = OPERATOR_JUMP_IF_ZERO ∨ c = OPERATOR_JUMP_UNLESS_ZERO →
      ∃ d, hashmap_get p.interpreter.bracket_map p.interpreter.pc = some d) :
    ∃ q, interpreter_run_body p = some q ∧ q.interpreter.pointer < MEMORY_SIZE := by
  obtain ⟨r, hr⟩ := dispatch_total c p hp hmap
  have hq : interpreter_run_body p =
      some { r with interpreter := { r.interpreter with pc := r.interpreter.pc + 1 } } := by
    unfold interpreter_run_body
    simp only [hc, hr, Option.map_some']
  exact ⟨_, hq, (interpreter_run_body_frame p _ hq).2.2.2 hp⟩

/-- After a successful `interpreter_init`, the bracket map is complete, its
entries stay inside the source, and the state in which the run loop starts
satisfies the invariant of the run loop. -/
theorem interpreter_init_run_inv (itp : interpreter) (src : List Char) (out : init_outcome)
    (h : interpreter_init itp src = some out) (hs : out.success = true) :
    map_complete src out.interpreter.bracket_map ∧
      (∀ k d, hashmap_get out.interpreter.bracket_map k = some d →
        k < src.length ∧ d < src.length) ∧
      ∀ stdin, run_inv src out.interpreter.bracket_map (start out stdin) := by
  rw [interpreter_init_eq] at h
  obtain ⟨st, hinv, hsz⟩ := init_bracket_map_success_inv (blank src) out rfl h hs
  have heq := (init_bracket_map_exit (blank src) out rfl h).2
  simp only [blank] at hinv
  refine ⟨?_, ?_, ?_⟩
  · intro x hx
    have hlt : x < src.length := by
      rcases hx with hx | hx
      · exact getElem?_lt_length _ _ _ hx
      · exact getElem?_lt_length _ _ _ hx
    obtain ⟨y, hy, g1, _, _⟩ := scan_inv_pairs _ _ _ _ _ hinv hsz x hlt hx
    exact ⟨y, g1, hy⟩
  · intro k d hk
    obtain ⟨h1, h2, _⟩ := scan_inv_entries _ _ _ _ _ hinv hsz k d hk
    exact ⟨h1, h2⟩
  · intro stdin
    refine ⟨?_, ?_, rfl, ?_, ?_⟩
    · exact congrArg interpreter.source heq
    · exact congrArg interpreter.source_length heq
    · have : out.interpreter.pc = 0 := congrArg interpreter.pc heq
      simp only [start, this]
      exact Nat.zero_le _
    · have : out.interpreter.pointer = 0 := congrArg interpreter.pointer heq
      simp only [start, this]
      decide

theorem two_loops_init : interpreter_init (blank []) two_loops = some two_loops_outcome :=
  two_loops_outcome_eq

/-- The run of `+[>++[[-]]<-]`, by evaluation: after eight iterations `pc` is at
the loop-end of address 8 with 1 in the current cell, after nine it is at
address 7, inside the innermost loop again, and after fifteen the run has
stopped at the end of the source with the cells 0 and 1 at zero. -/
theorem nested_loops_run :
    nested_loops_state.interpreter.pc = 8 ∧ nested_loops_state.interpreter.pointer = 1 ∧
      (current_cell_ref nested_loops_state.interpreter).map
        nested_loops_state.interpreter.cells = some 1 ∧
      ((interpreter_run_steps 9 (start nested_loops_outcome [])).map fun p =>
        p.interpreter.pc) = some 7 ∧
      ((interpreter_run_steps 15 (start nested_loops_outcome [])).map fun p =>
        (p.interpreter.pc, interpreter_run_condition p)) = some (13, false) ∧
      ((interpreter_run_steps 15 (start nested_loops_outcome [])).map fun p =>
        (p.interpreter.pointer, p.stdout)) = some (0, []) ∧
      ((interpreter_run_steps 15 (start nested_loops_outcome [])).map fun p =>
        (List.range 2).map fun i =>
          (current_cell_ref { p.interpreter with pointer := i }).map p.interpreter.cells) =
        some [some 0, some 0] := by
  decide!

theorem sample_outcome_eq : interpreter_init (blank []) sample_program = some sample_outcome := by
  rw [interpreter_init_eq]
  simp [sample_outcome]

/-- The run of the sample program on the empty input stream, by evaluation. -/
theorem sample_run_closed :
    (((interpreter_run_steps 36 (start sample_outcome [])).map fun p =>
      (decide (p.interpreter.pc = p.interpreter.source_length), p.stdout)) = some (true, [7])) ∧
      sample_outcome.success = true ∧
      ∀ c, c ∈ (start sample_outcome []).interpreter.source → c ≠ OPERATOR_READ := by
  decide!

/-- C9.  `interpreter_init` sets `pointer` to 0; every iteration of the run
loop, for every instruction character, maps a state with
`pointer < MEMORY_SIZE` to a state with `pointer < MEMORY_SIZE`; so in every
state reached from a successful `interpreter_init` the pointer is below
`MEMORY_SIZE` and `current_cell_ref` is a valid tape index. -/
theorem run_pointer_in_range (itp : interpreter) (src : List Char) (out : init_outcome)
    (h : interpreter_init itp src = some out) :
    out.interpreter.pointer = 0 ∧
      (∀ (p : process) (c : Char), p.interpreter.pointer < MEMORY_SIZE →
        p.interpreter.source[p.interpreter.pc]? = some c →
        (c = OPERATOR_JUMP_IF_ZERO ∨ c = OPERATOR_JUMP_UNLESS_ZERO →
          ∃ d, hashmap_get p.interpreter.bracket_map p.interpreter.pc = some d) →
        ∃ q, interpreter_run_body p = some q ∧ q.interpreter.pointer < MEMORY_SIZE) ∧
      (out.success = true → ∀ (stdin : List Nat) (n : Nat),
        ∃ p, interpreter_run_steps n (start out stdin) = some p ∧
          p.interpreter.pointer < MEMORY_SIZE ∧
          (current_cell_ref p.interpreter).isSome = true) := by
  refine ⟨?_, fun p c hp hc hmap => interpreter_run_body_total p c hp hc hmap, ?_⟩
  · rw [interpreter_init_eq] at h
    exact congrArg interpreter.pointer (init_bracket_map_exit (blank src) out rfl h).2
  · intro hs stdin n
    obtain ⟨hmap, _, hstart⟩ := interpreter_init_run_inv itp src out h hs
    obtain ⟨p, hp, hinv⟩ := interpreter_run_steps_inv src _ hmap n _ (hstart stdin)
    refine ⟨p, hp, hinv.pointer_lt, ?_⟩
    rw [current_cell_ref_eq _ hinv.pointer_lt]
    rfl

/-- The statement of C9 on the source `[-]+[>]`. -/
theorem run_pointer_in_range_witness :
    interpreter_init (blank []) two_loops = some two_loops_outcome ∧
      two_loops_outcome.interpreter.pointer = 0 ∧
      (∀ (p : process) (c : Char), p.interpreter.pointer < MEMORY_SIZE →
        p.interpreter.source[p.interpreter.pc]? = some c →
        (c = OPERATOR_JUMP_IF_ZERO ∨ c = OPERATOR_JUMP_UNLESS_ZERO →
          ∃ d, hashmap_get p.interpreter.bracket_map p.interpreter.pc = some d) →
        ∃ q, interpreter_run_body p = some q ∧ q.interpreter.pointer < MEMORY_SIZE) ∧
      (two_loops_outcome.success = true → ∀ (stdin : List Nat) (n : Nat),
        ∃ p, interpreter_run_steps n (start two_loops_outcome stdin) = some p ∧
          p.interpreter.pointer < MEMORY_SIZE ∧
          (current_cell_ref p.interpreter).isSome = true) :=
  ⟨two_loops_init, run_pointer_in_range (blank []) two_loops two_loops_outcome two_loops_init⟩

/-- C10.  From a fresh `interpreter_init`, the source `++>+++++[<+>-]<.` runs
to the end (after 36 iterations `pc` equals `source_length`) and writes
exactly one byte to the output, with value 7, for every input stream. -/
theorem sample_program_outputs_seven (itp : interpreter) (stdin : List Nat) :
    ∃ out n p, interpreter_init itp sample_program = some out ∧ out.success = true ∧
      interpreter_run_steps n (start out stdin) = some p ∧
      p.interpreter.pc = p.interpreter.source_length ∧ p.stdout = [7] := by
  obtain ⟨hrun, hs, hne⟩ := sample_run_closed
  cases hp : interpreter_run_steps 36 (start sample_outcome []) with
  | none =>
    rw [hp] at hrun
    exact absurd hrun (by simp)
  | some p0 =>
    rw [hp] at hrun
    simp only [Option.map_some', Option.some.injEq, Prod.mk.injEq, decide_eq_true_eq] at hrun
    have hstd := interpreter_run_steps_stdin stdin 36 (start sample_outcome []) hne
    rw [hp] at hstd
    exact ⟨sample_outcome, 36, _, sample_outcome_eq, hs, hstd, hrun.1, hrun.2⟩

/-! ## Single instructions -/

/-- C14.  In every state with `pc < source_length` whose character at `pc` is
none of the eight operators, one iteration of the run loop only increments
`pc`: the tape, the data pointer, the bracket map, the input and the output
are unchanged. -/
theorem unrecognized_character_is_noop (p : process) (c : Char)
    (hpc : p.interpreter.pc < p.interpreter.source_length)
    (hc : p.interpreter.source[p.interpreter.pc]? = some c)
    (h1 : c ≠ OPERATOR_RIGHT) (h2 : c ≠ OPERATOR_LEFT) (h3 : c ≠ OPERATOR_INCREMENT)
    (h4 : c ≠ OPERATOR_DECREMENT) (h5 : c ≠ OPERATOR_WRITE) (h6 : c ≠ OPERATOR_READ)
    (h7 : c ≠ OPERATOR_JUMP_IF_ZERO) (h8 : c ≠ OPERATOR_JUMP_UNLESS_ZERO) :
    interpreter_run_steps 1 p =
      some { p with interpreter := { p.interpreter with pc := p.interpreter.pc + 1 } } := by
  have hcond : interpreter_run_condition p = true := by
    simp only [interpreter_run_condition, decide_eq_true_eq]
    exact hpc
  have hd : dispatch c p = some p := by
    unfold dispatch
    simp only [h1, h2, h3, h4, h5, h6, h7, h8, if_false]
  simp only [interpreter_run_steps, hcond, if_true, interpreter_run_body, hc, hd, Option.map_some']

/-- The statement of C14 on the source `x+` at address 0. -/
theorem unrecognized_character_is_noop_witness :
    comment_state.interpreter.pc < comment_state.interpreter.source_length ∧
      comment_state.interpreter.source[comment_state.interpreter.pc]? = some 'x' ∧
      interpreter_run_steps 1 comment_state =
        some { comment_state with
          interpreter :=
            { comment_state.interpreter with pc := comment_state.interpreter.pc + 1 } } :=
  ⟨by decide, rfl,
    unrecognized_character_is_noop comment_state 'x' (by decide) rfl (by decide) (by decide)
      (by decide) (by decide) (by decide) (by decide) (by decide) (by decide)⟩

/-- A single `increment_cell` stores `(v + 1) mod 256` in the current cell. -/
theorem increment_cell_eq (itp : interpreter) (hp : itp.pointer < MEMORY_SIZE) :
    increment_cell itp =
      some { itp with
        cells := Function.update itp.cells ⟨itp.pointer, hp⟩
          ((itp.cells ⟨itp.pointer, hp⟩ + 1) % 256) } := by
  unfold increment_cell
  rw [current_cell_ref_eq itp hp]

/-- After `n` applications of `increment_cell` the current cell holds
`(v + n) mod 256`, and nothing else has changed. -/
theorem increment_cell_times_eq (n : Nat) :
    ∀ (itp : interpreter) (hp : itp.pointer < MEMORY_SIZE),
      itp.cells ⟨itp.pointer, hp⟩ < 256 →
      increment_cell_times n itp =
        some { itp with
          cells := Function.update itp.cells ⟨itp.pointer, hp⟩
            ((itp.cells ⟨itp.pointer, hp⟩ + n) % 256) } := by
  induction n with
  | zero =>
    intro itp hp hv
    simp only [increment_cell_times, Nat.add_zero, Nat.mod_eq_of_lt hv, Function.update_eq_self]
  | succ n ih =>
    intro itp hp hv
    simp only [increment_cell_times, increment_cell_eq itp hp]
    refine (ih { itp with
      cells := Function.update itp.cells ⟨itp.pointer, hp⟩
        ((itp.cells ⟨itp.pointer, hp⟩ + 1) % 256) } hp ?_).trans ?_
    · simp only [Function.update_same]
      exact Nat.mod_lt _ (by decide)
    · have h : ((itp.cells ⟨itp.pointer, hp⟩ + 1) % 256 + n) % 256 =
          (itp.cells ⟨itp.pointer, hp⟩ + (n + 1)) % 256 := by
        omega
      simp only [Function.update_same, Function.update_idem, h]

/-- C15.  For every interpreter state with the pointer in range and every value
`v` of the current cell (a `uint8_t`, so `v < 256`), 256 applications of
`increment_cell` give the state back: the current cell holds `v` again, no
other cell and not the pointer has changed; a single `increment_cell` maps `v`
to `(v + 1) mod 256`, so 255 becomes 0; after `n` applications the cell holds
`(v + n) mod 256`. -/
theorem increment_cell_wraps (itp : interpreter) (hp : itp.pointer < MEMORY_SIZE)
    (hv : itp.cells ⟨itp.pointer, hp⟩ < 256) :
    increment_cell_times 256 itp = some itp ∧
      increment_cell itp =
        some { itp with
          cells := Function.update itp.cells ⟨itp.pointer, hp⟩
            ((itp.cells ⟨itp.pointer, hp⟩ + 1) % 256) } ∧
      (itp.cells ⟨itp.pointer, hp⟩ = 255 →
        ∃ itp', increment_cell itp = some itp' ∧ itp'.cells ⟨itp.pointer, hp⟩ = 0) ∧
      ∀ n, ∃ itp', increment_cell_times n itp = some itp' ∧ itp'.pointer = itp.pointer ∧
        itp'.cells ⟨itp.pointer, hp⟩ = (itp.cells ⟨itp.pointer, hp⟩ + n) % 256 ∧
        ∀ i, i ≠ ⟨itp.pointer, hp⟩ → itp'.cells i = itp.cells i := by
  refine ⟨?_, increment_cell_eq itp hp, fun h255 => ⟨_, increment_cell_eq itp hp, ?_⟩,
    fun n => ⟨_, increment_cell_times_eq n itp hp hv, rfl, ?_, ?_⟩⟩
  · rw [increment_cell_times_eq 256 itp hp hv]
    have : (itp.cells ⟨itp.pointer, hp⟩ + 256) % 256 = itp.cells ⟨itp.pointer, hp⟩ := by
      omega
    rw [this, Function.update_eq_self]
  · simp only [Function.update_same, h255]
  · simp only [Function.update_same]
  · intro i hi
    simp only [Function.update_noteq hi]

/-- The statement of C15 on a tape whose current cell holds 255. -/
theorem increment_cell_wraps_witness :
    ∃ hp : full_cells.pointer < MEMORY_SIZE,
      full_cells.cells ⟨full_cells.pointer, hp⟩ < 256 ∧
      full_cells.cells ⟨full_cells.pointer, hp⟩ = 255 ∧
      increment_cell_times 256 full_cells = some full_cells ∧
      ∃ itp', increment_cell full_cells = some itp' ∧ itp'.cells ⟨full_cells.pointer, hp⟩ = 0 :=
  ⟨by decide, by decide, rfl,
    (increment_cell_wraps full_cells (by decide) (by decide)).1,
    (increment_cell_wraps full_cells (by decide) (by decide)).2.2.1 rfl⟩

/-- After `n` applications of `move_pointer_right` the pointer is
`(pointer + n) mod MEMORY_SIZE`, and nothing else has changed. -/
theorem move_pointer_right_iterate (n : Nat) :
    ∀ itp : interpreter, Nat.iterate move_pointer_right n itp =
      { itp with pointer := if n = 0 then itp.pointer else (itp.pointer + n) % MEMORY_SIZE } := by
  induction n with
  | zero =>
    intro itp
    rfl
  | succ n ih =>
    intro itp
    rw [Function.iterate_succ_apply', ih]
    simp only [move_pointer_right, Nat.succ_ne_zero, if_false, MEMORY_SIZE]
    congr 1
    split_ifs with h
    · subst h
      rfl
    · omega

/-- A single `move_pointer_left` is a step of `MEMORY_SIZE - 1` to the right. -/
theorem move_pointer_left_step (itp : interpreter) (hp : itp.pointer < MEMORY_SIZE) :
    move_pointer_left itp =
      { itp with pointer := (itp.pointer + (MEMORY_SIZE - 1)) % MEMORY_SIZE } := by
  unfold move_pointer_left
  have h : (if itp.pointer = 0 then MEMORY_SIZE - 1 else itp.pointer - 1) =
      (itp.pointer + (MEMORY_SIZE - 1)) % MEMORY_SIZE := by
    unfold MEMORY_SIZE at hp ⊢
    split_ifs with h0
    · omega
    · omega
  simp only [h]

/-- After `n` applications of `move_pointer_left` the pointer is
`(pointer + n * (MEMORY_SIZE - 1)) mod MEMORY_SIZE`, and nothing else has
changed. -/
theorem move_pointer_left_iterate (n : Nat) :
    ∀ itp : interpreter, itp.pointer < MEMORY_SIZE →
      Nat.iterate move_pointer_left n itp =
        { itp with pointer := (itp.pointer + n * (MEMORY_SIZE - 1)) % MEMORY_SIZE } := by
  induction n with
  | zero =>
    intro itp hp
    simp only [Function.iterate_zero, id_eq, Nat.zero_mul, Nat.add_zero, Nat.mod_eq_of_lt hp]
  | succ n ih =>
    intro itp hp
    rw [Function.iterate_succ_apply', ih itp hp,
      move_pointer_left_step _ (Nat.mod_lt _ (by decide))]
    have h : ((itp.pointer + n * (MEMORY_SIZE - 1)) % MEMORY_SIZE + (MEMORY_SIZE - 1)) %
        MEMORY_SIZE = (itp.pointer + (n + 1) * (MEMORY_SIZE - 1)) % MEMORY_SIZE := by
      unfold MEMORY_SIZE
      omega
    simp only [h]

/-- C16.  For every pointer value below `MEMORY_SIZE`, `MEMORY_SIZE`
applications of `move_pointer_right` give the state back, and so do
`MEMORY_SIZE` applications of `move_pointer_left`; from address 0 a move to the
left goes to `MEMORY_SIZE - 1`; the tape is unchanged by any number of moves. -/
theorem pointer_movement_wraps (itp : interpreter) (hp : itp.pointer < MEMORY_SIZE) :
    Nat.iterate move_pointer_right MEMORY_SIZE itp = itp ∧
      Nat.iterate move_pointer_left MEMORY_SIZE itp = itp ∧
      (itp.pointer = 0 → (move_pointer_left itp).pointer = MEMORY_SIZE - 1) ∧
      ∀ n, (Nat.iterate move_pointer_right n itp).cells = itp.cells ∧
        (Nat.iterate move_pointer_left n itp).cells = itp.cells := by
  refine ⟨?_, ?_, ?_, fun n => ⟨?_, ?_⟩⟩
  · rw [move_pointer_right_iterate]
    have : (itp.pointer + MEMORY_SIZE) % MEMORY_SIZE = itp.pointer := by
      unfold MEMORY_SIZE at hp ⊢
      omega
    simp only [show ¬ (MEMORY_SIZE = 0) by decide, if_false, this]
  · rw [move_pointer_left_iterate _ _ hp]
    have : (itp.pointer + MEMORY_SIZE * (MEMORY_SIZE - 1)) % MEMORY_SIZE = itp.pointer := by
      unfold MEMORY_SIZE at hp ⊢
      omega
    rw [this]
  · intro h0
    simp only [move_pointer_left, h0, if_true]
  · rw [move_pointer_right_iterate]
  · rw [move_pointer_left_iterate _ _ hp]

/-- The statement of C16 at the pointer value 0. -/
theorem pointer_movement_wraps_witness :
    (blank []).pointer < MEMORY_SIZE ∧
      Nat.iterate move_pointer_right MEMORY_SIZE (blank []) = blank [] ∧
      Nat.iterate move_pointer_left MEMORY_SIZE (blank []) = blank [] ∧
      ((blank []).pointer = 0 → (move_pointer_left (blank [])).pointer = MEMORY_SIZE - 1) :=
  ⟨by decide, (pointer_movement_wraps (blank []) (by decide)).1,
    (pointer_movement_wraps (blank []) (by decide)).2.1,
    (pointer_movement_wraps (blank []) (by decide)).2.2.1⟩

/-- C18.  When the input stream is exhausted, `getc` returns `EOF`, which is
`-1`, and the read instruction stores its truncation to 8 bits, 255, in the
current cell, whatever the cell held: the cell is neither left unchanged nor
set to 0; no other cell, the pointer, `pc` or the output changes. -/
theorem end_of_input_stores_255 (p : process) (hp : p.interpreter.pointer < MEMORY_SIZE)
    (heof : p.stdin = []) :
    getc p.stdin = (-1, []) ∧
      ∃ q, replace_cell_with_stdin p = some q ∧ dispatch OPERATOR_READ p = some q ∧
        q.interpreter.cells ⟨p.interpreter.pointer, hp⟩ = 255 ∧
        (∀ i, i ≠ ⟨p.interpreter.pointer, hp⟩ → q.interpreter.cells i = p.interpreter.cells i) ∧
        q.interpreter.pointer = p.interpreter.pointer ∧ q.interpreter.pc = p.interpreter.pc ∧
        q.stdout = p.stdout ∧ q.stdin = [] := by
  have hq : replace_cell_with_stdin p =
      some { p with
        interpreter :=
          { p.interpreter with
            cells := Function.update p.interpreter.cells ⟨p.interpreter.pointer, hp⟩ 255 }
        stdin := [] } := by
    unfold replace_cell_with_stdin
    simp only [heof, getc, current_cell_ref_eq _ hp]
    rfl
  refine ⟨by rw [heof]; rfl, _, hq, hq, ?_, ?_, rfl, rfl, rfl, rfl⟩
  · simp only [Function.update_same]
  · intro i hi
    simp only [Function.update_noteq hi]

/-- The statement of C18 on a state whose current cell holds 7. -/
theorem end_of_input_stores_255_witness :
    ∃ hp : end_of_input_state.interpreter.pointer < MEMORY_SIZE,
      end_of_input_state.stdin = [] ∧
      end_of_input_state.interpreter.cells ⟨end_of_input_state.interpreter.pointer, hp⟩ = 7 ∧
      ∃ q, replace_cell_with_stdin end_of_input_state = some q ∧
        dispatch OPERATOR_READ end_of_input_state = some q ∧
        q.interpreter.cells ⟨end_of_input_state.interpreter.pointer, hp⟩ = 255 ∧
        (∀ i, i ≠ ⟨end_of_input_state.interpreter.pointer, hp⟩ →
          q.interpreter.cells i = end_of_input_state.interpreter.cells i) ∧
        q.interpreter.pointer = end_of_input_state.interpreter.pointer ∧
        q.interpreter.pc = end_of_input_state.interpreter.pc ∧
        q.stdout = end_of_input_state.stdout ∧ q.stdin = [] :=
  ⟨by decide, rfl, rfl, (end_of_input_stores_255 end_of_input_state (by decide) rfl).2⟩

/-- The `switch` of the run loop leaves `pc` alone on every character that is
not a bracket. -/
theorem dispatch_pc (c : Char) (p q : process) (h1 : c ≠ OPERATOR_JUMP_IF_ZERO)
    (h2 : c ≠ OPERATOR_JUMP_UNLESS_ZERO) (h : dispatch c p = some q) :
    q.interpreter.pc = p.interpreter.pc := by
  unfold dispatch at h
  simp only [h1, h2, if_false] at h
  split_ifs at h with e1 e2 e3 e4 e5 e6
  · simp only [Option.some.injEq] at h
    subst h
    rfl
  · simp only [Option.some.injEq] at h
    subst h
    rfl
  · unfold increment_cell at h
    cases href : current_cell_ref p.interpreter with
    | none => simp [href] at h
    | some r =>
      simp only [href, Option.map_some', Option.some.injEq] at h
      subst h
      rfl
  · unfold decrement_cell at h
    cases href : current_cell_ref p.interpreter with
    | none => simp [href] at h
    | some r =>
      simp only [href, Option.map_some', Option.some.injEq] at h
      subst h
      rfl
  · unfold write_cell_to_stdout at h
    cases href : current_cell_ref p.interpreter with
    | none => simp [href] at h
    | some r =>
      simp only [href, Option.some.injEq] at h
      subst h
      rfl
  · unfold replace_cell_with_stdin at h
    cases href : current_cell_ref p.interpreter with
    | none => simp [href] at h
    | some r =>
      simp only [href, Option.some.injEq] at h
      subst h
      rfl
  · simp only [Option.some.injEq] at h
    subst h
    rfl

/-- On a character that is not a bracket, one iteration of the run loop
advances `pc` by exactly one. -/
theorem interpreter_run_body_pc (p q : process) (c : Char)
    (hc : p.interpreter.source[p.interpreter.pc]? = some c) (h1 : c ≠ OPERATOR_JUMP_IF_ZERO)
    (h2 : c ≠ OPERATOR_JUMP_UNLESS_ZERO) (h : interpreter_run_body p = some q) :
    q.interpreter.pc = p.interpreter.pc + 1 := by
  unfold interpreter_run_body at h
  simp only [hc] at h
  cases hd : dispatch c p with
  | none => simp [hd] at h
  | some r =>
    simp only [hd, Option.map_some', Option.some.injEq] at h
    subst h
    simp only [dispatch_pc c p r h1 h2 hd]

/-- One more iteration of the run loop, when the loop condition holds and the
body returns. -/
theorem interpreter_run_steps_succ (n : Nat) (p p' : process)
    (hcond : p.interpreter.pc < p.interpreter.source_length)
    (hbody : interpreter_run_body p = some p') :
    interpreter_run_steps (n + 1) p = interpreter_run_steps n p' := by
  have hc : interpreter_run_condition p = true := by
    simp only [interpreter_run_condition, decide_eq_true_eq]
    exact hcond
  simp only [interpreter_run_steps, hc, if_true, hbody]

/-- The scan of a source without brackets leaves the stack and the map alone. -/
theorem init_bracket_map_loop_no_brackets (itp : interpreter) :
    ∀ (rest : List Char) (a : Nat) (st : stack) (m : hashmap),
      (∀ c, c ∈ rest → c ≠ OPERATOR_JUMP_IF_ZERO ∧ c ≠ OPERATOR_JUMP_UNLESS_ZERO) →
      init_bracket_map_loop itp rest a st m = init_bracket_map_loop itp [] a st m := by
  intro rest
  induction rest with
  | nil =>
    intro a st m _
    rfl
  | cons c rest ih =>
    intro a st m hc
    have h1 := (hc c (List.mem_cons_self _ _)).1
    have h2 := (hc c (List.mem_cons_self _ _)).2
    conv_lhs => rw [init_bracket_map_loop]
    simp only [h1, h2, if_false]
    rw [ih (a + 1) st m (fun c' hc' => hc c' (List.mem_cons_of_mem _ hc'))]
    rfl

/-- On a source without brackets `interpreter_init` succeeds and leaves the
struct as it has filled it in, with the empty bracket map. -/
theorem interpreter_init_no_brackets (itp : interpreter) (src : List Char)
    (hsrc : ∀ c, c ∈ src → c ≠ OPERATOR_JUMP_IF_ZERO ∧ c ≠ OPERATOR_JUMP_UNLESS_ZERO) :
    interpreter_init itp src =
      some { success := true, stderr := "", interpreter := blank src } := by
  rw [interpreter_init_eq]
  unfold init_bracket_map
  have : (blank src).source.take (blank src).source_length = src := by
    simp [blank]
  rw [this, init_bracket_map_loop_no_brackets _ src 0 _ _ hsrc]
  rfl

/-- C11.  For every input byte `b`, the source `,.` run from a fresh
`interpreter_init` on an input stream that starts with `b` is still running
after one iteration and has stopped after two, with `pc = source_length`; it
has consumed exactly the byte `b` and written exactly the byte `b`. -/
theorem echo_program_outputs_input (itp : interpreter) (b : Nat) (rest : List Nat)
    (hb : b < 256) :
    ∃ out p1 p2, interpreter_init itp ",.".toList = some out ∧ out.success = true ∧
      interpreter_run_steps 1 (start out (b :: rest)) = some p1 ∧
      interpreter_run_condition p1 = true ∧
      interpreter_run_steps 2 (start out (b :: rest)) = some p2 ∧
      interpreter_run_condition p2 = false ∧
      p2.interpreter.pc = p2.interpreter.source_length ∧
      p2.stdin = rest ∧ p2.stdout = [b] := by
  have hinit := interpreter_init_no_brackets itp ",.".toList (by decide)
  refine ⟨_, _, _, hinit, rfl, rfl, rfl, rfl, rfl, rfl, rfl, ?_⟩
  show putc _ [] = [b]
  simp only [putc, List.nil_append, Function.update_same]
  have h : ((((b % 256 : Nat) : Int) % 256).toNat : Int) % 256 = (b : Int) := by omega
  rw [h, Int.toNat_natCast]

/-- The statement of C11 for the byte 65 followed by the byte 10. -/
theorem echo_program_outputs_input_witness :
    65 < 256 ∧
      ∃ out p1 p2, interpreter_init (blank []) ",.".toList = some out ∧ out.success = true ∧
        interpreter_run_steps 1 (start out (65 :: [10])) = some p1 ∧
        interpreter_run_condition p1 = true ∧
        interpreter_run_steps 2 (start out (65 :: [10])) = some p2 ∧
        interpreter_run_condition p2 = false ∧
        p2.interpreter.pc = p2.interpreter.source_length ∧
        p2.stdin = [10] ∧ p2.stdout = [65] :=
  ⟨by decide, echo_program_outputs_input (blank []) 65 [10] (by decide)⟩

/-- On a source without brackets, `n` iterations of the run loop advance `pc`
by exactly `n`, as long as the source is that long. -/
theorem interpreter_run_steps_no_brackets (src : List Char) (map : hashmap)
    (hsrc : ∀ c, c ∈ src → c ≠ OPERATOR_JUMP_IF_ZERO ∧ c ≠ OPERATOR_JUMP_UNLESS_ZERO) :
    ∀ (n : Nat) (p : process), run_inv src map p → p.interpreter.pc + n ≤ src.length →
      ∃ q, interpreter_run_steps n p = some q ∧ q.interpreter.pc = p.interpreter.pc + n ∧
        run_inv src map q := by
  have hmap : map_complete src map := by
    intro x hx
    exfalso
    rcases hx with hx | hx
    · exact (hsrc _ (List.getElem?_mem hx)).1 rfl
    · exact (hsrc _ (List.getElem?_mem hx)).2 rfl
  intro n
  induction n with
  | zero =>
    intro p hinv _
    exact ⟨p, rfl, rfl, hinv⟩
  | succ n ih =>
    intro p hinv hle
    have hpc : p.interpreter.pc < src.length := by omega
    obtain ⟨r, hr, hinv'⟩ := interpreter_run_body_inv src map hmap p hinv hpc
    have hc : p.interpreter.source[p.interpreter.pc]? = some (src[p.interpreter.pc]) := by
      rw [hinv.source_eq]
      exact List.getElem?_eq_getElem hpc
    have hmem := hsrc _ (List.getElem_mem hpc)
    have hstep := interpreter_run_body_pc p r _ hc hmem.1 hmem.2 hr
    rw [interpreter_run_steps_succ n p r (by rw [hinv.length_eq]; exact hpc) hr]
    obtain ⟨q, hq, hqpc, hqinv⟩ := ih r hinv' (by omega)
    exact ⟨q, hq, by omega, hqinv⟩

/-- C12.  For every source without a bracket, `interpreter_init` succeeds with
an empty bracket map, and the run loop advances `pc` by exactly one per
iteration: after `n ≤ source_length` iterations `pc = n`, and the loop
condition holds exactly while `n < source_length`, so the run stops after
exactly `source_length` iterations.  For the empty source the loop runs zero
iterations: no output, tape all zero. -/
theorem no_bracket_source_runs (itp : interpreter) (src : List Char) (stdin : List Nat)
    (hsrc : ∀ c, c ∈ src → c ≠ OPERATOR_JUMP_IF_ZERO ∧ c ≠ OPERATOR_JUMP_UNLESS_ZERO) :
    ∃ out, interpreter_init itp src = some out ∧ out.success = true ∧
      out.interpreter.bracket_map = hashmap_init itp.bracket_map ∧
      (∀ k, hashmap_get out.interpreter.bracket_map k = none) ∧
      (∀ n, n ≤ src.length → ∃ p, interpreter_run_steps n (start out stdin) = some p ∧
        p.interpreter.pc = n ∧ (interpreter_run_condition p = true ↔ n < src.length)) ∧
      (src = [] → ∀ n, ∃ p, interpreter_run_steps n (start out stdin) = some p ∧
        p.interpreter.pc = 0 ∧ p.stdout = [] ∧ ∀ i, p.interpreter.cells i = 0) := by
  refine ⟨_, interpreter_init_no_brackets itp src hsrc, rfl, rfl, fun k => rfl, ?_, ?_⟩
  · intro n hn
    have hstart : run_inv src (blank src).bracket_map
        (start { success := true, stderr := "", interpreter := blank src } stdin) :=
      ⟨rfl, rfl, rfl, Nat.zero_le _, (by decide : 0 < MEMORY_SIZE)⟩
    obtain ⟨q, hq, hqpc, hqinv⟩ :=
      interpreter_run_steps_no_brackets src _ hsrc n _ hstart (by
        show 0 + n ≤ src.length
        omega)
    have hpc : q.interpreter.pc = n := by
      rw [hqpc]
      show 0 + n = n
      omega
    refine ⟨q, hq, hpc, ?_⟩
    simp only [interpreter_run_condition, decide_eq_true_eq, hqinv.length_eq, hpc]
  · intro hnil n
    subst hnil
    refine ⟨start { success := true, stderr := "", interpreter := blank [] } stdin, ?_, rfl, rfl,
      fun i => rfl⟩
    cases n with
    | zero => rfl
    | succ n => rfl

/-- The statement of C12 on the source `+>.`, from a struct with content left by
an earlier use. -/
theorem no_bracket_source_runs_witness :
    (∀ c, c ∈ "+>.".toList → c ≠ OPERATOR_JUMP_IF_ZERO ∧ c ≠ OPERATOR_JUMP_UNLESS_ZERO) ∧
      ∃ out, interpreter_init used_interpreter "+>.".toList = some out ∧ out.success = true ∧
        out.interpreter.bracket_map = hashmap_init used_interpreter.bracket_map ∧
        (∀ k, hashmap_get out.interpreter.bracket_map k = none) ∧
        (∀ n, n ≤ "+>.".toList.length →
          ∃ p, interpreter_run_steps n (start out []) = some p ∧
            p.interpreter.pc = n ∧
            (interpreter_run_condition p = true ↔ n < "+>.".toList.length)) ∧
        ("+>.".toList = [] → ∀ n, ∃ p, interpreter_run_steps n (start out []) = some p ∧
          p.interpreter.pc = 0 ∧ p.stdout = [] ∧ ∀ i, p.interpreter.cells i = 0) :=
  ⟨by decide, no_bracket_source_runs used_interpreter "+>.".toList [] (by decide)⟩

/-- Where the scan stays inside the stack block (at most three loops are open
at any point), `interpreter_init` returns one and the same outcome from any two
prior contents of the interpreter struct, with `pc` 0, pointer 0 and a zero
tape; and after a success `n` iterations of the run loop give a state, the
same for both. -/
theorem interpreter_init_prior_state_shallow (itp1 itp2 : interpreter) (src : List Char)
    (stdin : List Nat) (n : Nat)
    (hdepth : ∀ k, k ≤ src.length → opens src k ≤ closes src k + 3) :
    ∃ out, interpreter_init itp1 src = some out ∧ interpreter_init itp2 src = some out ∧
      out.interpreter.pc = 0 ∧ out.interpreter.pointer = 0 ∧
      (∀ i, out.interpreter.cells i = 0) ∧
      (out.success = true → ∃ p, interpreter_run_steps n (start out stdin) = some p) := by
  obtain ⟨out, hout⟩ := interpreter_init_total itp1 src hdepth
  have heq : out.interpreter = { blank src with bracket_map := out.interpreter.bracket_map } := by
    rw [interpreter_init_eq] at hout
    exact (init_bracket_map_exit (blank src) out rfl hout).2
  refine ⟨out, hout, hout, ?_, ?_, ?_, ?_⟩
  · rw [heq]
    rfl
  · rw [heq]
    rfl
  · intro i
    rw [heq]
    rfl
  · intro hs
    obtain ⟨hmap, _, hstart⟩ := interpreter_init_run_inv itp1 src out hout hs
    obtain ⟨p, hp, _⟩ := interpreter_run_steps_inv src _ hmap n _ (hstart stdin)
    exact ⟨p, hp⟩

/-- C20.  The hash map is an associative map: after `hashmap_set` on the key
`k` with the value `v`, `hashmap_get` at `k` returns `true` with `v`, whether
`k` was absent or is overwritten; at every other key it returns what it
returned before, also when both keys fall in one of the 10 buckets; on a map
fresh from `hashmap_init` every `hashmap_get` returns `false`. -/
theorem hashmap_associative (m : hashmap) (k v k' : Nat) :
    hashmap_get (hashmap_set m k v) k = some v ∧
      (k' ≠ k → hashmap_get (hashmap_set m k v) k' = hashmap_get m k') ∧
      hashmap_get (hashmap_init m) k' = none := by
  refine ⟨?_, fun hne => ?_, hashmap_get_init m k'⟩
  · rw [hashmap_get_set, if_pos rfl]
  · rw [hashmap_get_set, if_neg hne]

/-- The statement of C20 on a map with one entry, for the keys 0 and 5, which
fall in the same bucket. -/
theorem hashmap_associative_witness :
    bucket_index 5 = bucket_index 0 ∧ 5 ≠ 0 ∧
      hashmap_get (hashmap_set one_entry_map 0 7) 0 = some 7 ∧
      hashmap_get (hashmap_set one_entry_map 0 7) 5 = hashmap_get one_entry_map 5 ∧
      hashmap_get one_entry_map 5 = some 50 ∧
      hashmap_get (hashmap_init one_entry_map) 5 = none :=
  ⟨by decide!, by decide, (hashmap_associative one_entry_map 0 7 5).1,
    (hashmap_associative one_entry_map 0 7 5).2.1 (by decide), by decide!,
    (hashmap_associative one_entry_map 0 7 5).2.2⟩

end BF
